import Mathlib

/-!
Verification of the experience-memory subsystem of the trading-gpt
repository (package pkg/memory): the markdown serializer and parser for
memory records, the memory manager (store), the LLM relevance retriever
and the trigger framework.

Go strings are modelled as lists of characters (Str); the Go library
functions used by the code (strings.Split, strings.TrimSpace,
strings.HasPrefix, strings.TrimPrefix, strings.Join, strings.Contains,
strings.ToLower, fmt.Sscanf with a %d verb, time.Parse and time.Format)
are modelled by executable definitions with the same semantics.
Impure inputs of the Go code (time.Now(), uuid.New(), the filesystem and
the LLM response) are passed as explicit parameters.
-/

namespace TG

abbrev Str := List Char

/-- unicode.IsSpace of Go: the Unicode White_Space property, which is what
strings.TrimSpace trims.  The 25 White_Space code points are enumerated. -/
def goIsSpace (c : Char) : Bool :=
  let n := c.toNat
  n == 32 || n == 9 || n == 10 || n == 11 || n == 12 || n == 13 ||
  n == 0x85 || n == 0xA0 || n == 0x1680 ||
  (0x2000 <= n && n <= 0x200A) ||
  n == 0x2028 || n == 0x2029 || n == 0x202F || n == 0x205F || n == 0x3000

/-- strings.TrimSpace: drop White_Space characters from both ends. -/
def trimSpace (s : Str) : Str :=
  ((s.dropWhile goIsSpace).reverse.dropWhile goIsSpace).reverse

/-- strings.HasPrefix p s: the pattern p starts the string s. -/
def leadsWith : Str → Str → Bool
  | [], _ => true
  | _ :: _, [] => false
  | p :: ps, c :: cs => p == c && leadsWith ps cs

/-- strings.Contains (with the arguments flipped): the pattern occurs
somewhere in the string. -/
def occursIn (pat : Str) : Str → Bool
  | [] => leadsWith pat []
  | c :: cs => leadsWith pat (c :: cs) || occursIn pat cs

/-- strings.Split with a non-empty separator p :: ps: repeatedly cut at the
leftmost occurrence of the separator. -/
def splitMark (p : Char) (ps : Str) : Str → List Str
  | [] => [[]]
  | c :: cs =>
    if leadsWith (p :: ps) (c :: cs) then
      [] :: splitMark p ps (cs.drop ps.length)
    else
      match splitMark p ps cs with
      | [] => [[c]]
      | q :: qs => (c :: q) :: qs
termination_by s => s.length
decreasing_by
  · simp only [List.length_cons]
    have := List.length_drop ps.length cs
    omega
  · simp

/-- strings.Split.  The Go code only applies it to non-empty separators;
for an empty separator Go would explode the string into characters, a case
never reached here. -/
def splitGo (sep : Str) (s : Str) : List Str :=
  match sep with
  | [] => [s]
  | p :: ps => splitMark p ps s

/-- strings.Join: concatenate with the separator between elements. -/
def joinGo (sep : Str) (parts : List Str) : Str :=
  List.intercalate sep parts

/-- strings.ToLower, restricted to the simple ASCII case mapping; the
repository only matches ASCII and Chinese text, and Chinese characters are
unchanged by ToLower. -/
def toLowerChar (c : Char) : Char :=
  if 'A' ≤ c ∧ c ≤ 'Z' then Char.ofNat (c.toNat + 32) else c

def toLowerStr (s : Str) : Str := s.map toLowerChar

def isDigitChar (c : Char) : Bool := 48 ≤ c.toNat && c.toNat ≤ 57

/-- The decimal digit character for n < 10. -/
def digitChar (n : Nat) : Char := Char.ofNat (48 + n)

/-- Decimal representation of a natural number, as printed by fmt with a
%d verb. -/
def natToStr (n : Nat) : Str :=
  if _h : n < 10 then [digitChar n]
  else natToStr (n / 10) ++ [digitChar (n % 10)]
termination_by n
decreasing_by
  exact Nat.div_lt_self (by omega) (by omega)

/-- Decimal representation of an integer, as printed by fmt with a %d
verb. -/
def intToStr (i : Int) : Str :=
  if i < 0 then '-' :: natToStr (-i).toNat else natToStr i.toNat

/-- Value of the leading run of decimal digits, given an accumulator;
characters after the first non-digit are ignored. -/
def digitsVal (acc : Nat) : Str → Nat
  | [] => acc
  | c :: cs =>
    if isDigitChar c then digitsVal (acc * 10 + (c.toNat - 48)) cs else acc

/-- Parse a natural number the way the %d verb of fmt.Sscanf reads one:
at least one leading digit is required, the digit run is consumed and the
rest of the string is left unread (which Sscanf does not treat as an
error). -/
def parseGoNat : Str → Option Nat
  | [] => none
  | c :: cs =>
    if isDigitChar c then some (digitsVal (c.toNat - 48) cs) else none

/-- fmt.Sscanf(s, "%d", &x): skip leading white space, then an optional
sign followed by at least one digit; none models a scan error, in which
case the Go code leaves the target variable unchanged. -/
def parseGoInt (s : Str) : Option Int :=
  match s.dropWhile goIsSpace with
  | [] => none
  | c :: rest =>
    if c == '-' then (parseGoNat rest).map (fun n => -(n : Int))
    else if c == '+' then (parseGoNat rest).map (fun n => (n : Int))
    else (parseGoNat (c :: rest)).map (fun n => (n : Int))

/-! ## Wall-clock timestamps

time.Time values are modelled by their wall-clock fields.  The layouts
used by the code (the primary layout 2006-01-02 15:04:05 and the RFC3339
fallback) format and parse exactly these fields; fractional seconds are
the nano field. -/

structure DateTime where
  year : Nat
  month : Nat
  day : Nat
  hour : Nat
  minute : Nat
  second : Nat
  nano : Nat
deriving DecidableEq, Repr

/-- The zero time.Time value: January 1, year 1, 00:00:00. -/
def zeroDateTime : DateTime := ⟨1, 1, 1, 0, 0, 0, 0⟩

/-- Truncation of a timestamp to second precision. -/
def truncSec (dt : DateTime) : DateTime := { dt with nano := 0 }

def isLeapYear (y : Nat) : Bool :=
  y % 4 == 0 && (y % 100 != 0 || y % 400 == 0)

def daysInMonth (y m : Nat) : Nat :=
  if m == 2 then (if isLeapYear y then 29 else 28)
  else if m == 4 || m == 6 || m == 9 || m == 11 then 30
  else 31

/-- The wall-clock fields that time.Parse accepts for a layout with a
four-digit year: exactly the ranges checked by Go's date validation. -/
def validDateTime (dt : DateTime) : Prop :=
  1 ≤ dt.year ∧ dt.year ≤ 9999 ∧
  1 ≤ dt.month ∧ dt.month ≤ 12 ∧
  1 ≤ dt.day ∧ dt.day ≤ daysInMonth dt.year dt.month ∧
  dt.hour ≤ 23 ∧ dt.minute ≤ 59 ∧ dt.second ≤ 59

instance (dt : DateTime) : Decidable (validDateTime dt) := by
  unfold validDateTime; infer_instance

/-- Zero-padded two-digit decimal, as produced by the 01 / 02 / 15 / 04 /
05 layout elements of time.Format. -/
def pad2 (n : Nat) : Str := [digitChar (n / 10 % 10), digitChar (n % 10)]

/-- Zero-padded four-digit decimal, as produced by the 2006 layout element
of time.Format. -/
def pad4 (n : Nat) : Str :=
  [digitChar (n / 1000 % 10), digitChar (n / 100 % 10),
   digitChar (n / 10 % 10), digitChar (n % 10)]

/-- time.Format with the layout 2006-01-02 15:04:05. -/
def formatPrimaryTime (dt : DateTime) : Str :=
  pad4 dt.year ++ '-' :: pad2 dt.month ++ '-' :: pad2 dt.day ++
  ' ' :: pad2 dt.hour ++ ':' :: pad2 dt.minute ++ ':' :: pad2 dt.second

def digitValOf (c : Char) : Nat := c.toNat - 48

/-- time.Parse with the layout 2006-01-02 15:04:05: exactly nineteen
characters, digits in the digit positions and the layout separators in
theirs, with Go's range checks on every field; none models a parse
error. -/
def parsePrimaryTime (s : Str) : Option DateTime :=
  match s with
  | [y1, y2, y3, y4, k1, m1, m2, k2, d1, d2, k3,
     h1, h2, k4, i1, i2, k5, s1, s2] =>
    if k1 == '-' && k2 == '-' && k3 == ' ' && k4 == ':' && k5 == ':' &&
       isDigitChar y1 && isDigitChar y2 && isDigitChar y3 && isDigitChar y4 &&
       isDigitChar m1 && isDigitChar m2 && isDigitChar d1 && isDigitChar d2 &&
       isDigitChar h1 && isDigitChar h2 && isDigitChar i1 && isDigitChar i2 &&
       isDigitChar s1 && isDigitChar s2 then
      let y := ((digitValOf y1 * 10 + digitValOf y2) * 10 + digitValOf y3) * 10
                 + digitValOf y4
      let mo := digitValOf m1 * 10 + digitValOf m2
      let d := digitValOf d1 * 10 + digitValOf d2
      let h := digitValOf h1 * 10 + digitValOf h2
      let mi := digitValOf i1 * 10 + digitValOf i2
      let sec := digitValOf s1 * 10 + digitValOf s2
      if 1 ≤ mo ∧ mo ≤ 12 ∧ 1 ≤ d ∧ d ≤ daysInMonth y mo ∧
         h ≤ 23 ∧ mi ≤ 59 ∧ sec ≤ 59 then
        some ⟨y, mo, d, h, mi, sec, 0⟩
      else none
    else none
  | _ => none

/-- The offset part of an RFC3339 timestamp: Z or a signed hh:mm. -/
def rfc3339ZoneOk (s : Str) : Bool :=
  match s with
  | ['Z'] => true
  | [sg, o1, o2, ':', o3, o4] =>
    (sg == '+' || sg == '-') && isDigitChar o1 && isDigitChar o2 &&
    isDigitChar o3 && isDigitChar o4 &&
    (digitValOf o1 * 10 + digitValOf o2) < 24 &&
    (digitValOf o3 * 10 + digitValOf o4) < 60
  | _ => false

/-- The fractional-second and offset tail of an RFC3339 timestamp:
an optional dot-led digit run giving nanoseconds, then Z or a signed
hh:mm offset; the value returned is the nanosecond count. -/
def parseRFC3339Tail (s : Str) : Option Nat :=
  match s with
  | '.' :: rest =>
    let frac := rest.takeWhile isDigitChar
    let tail := rest.dropWhile isDigitChar
    if frac.length = 0 ∨ frac.length > 9 then none
    else if rfc3339ZoneOk tail then
      some (digitsVal 0 frac * 10 ^ (9 - frac.length))
    else none
  | s => if rfc3339ZoneOk s then some 0 else none

/-- time.Parse with the time.RFC3339 layout, the fallback format of the
memory parser.  The wall-clock fields are kept; the zone offset only needs
to be well-formed. -/
def parseRFC3339Time (s : Str) : Option DateTime :=
  match s.take 19, s.drop 19 with
  | [y1, y2, y3, y4, '-', m1, m2, '-', d1, d2, 'T',
     h1, h2, ':', i1, i2, ':', s1, s2], rest =>
    if isDigitChar y1 && isDigitChar y2 && isDigitChar y3 && isDigitChar y4 &&
       isDigitChar m1 && isDigitChar m2 && isDigitChar d1 && isDigitChar d2 &&
       isDigitChar h1 && isDigitChar h2 && isDigitChar i1 && isDigitChar i2 &&
       isDigitChar s1 && isDigitChar s2 then
      let y := ((digitValOf y1 * 10 + digitValOf y2) * 10 + digitValOf y3) * 10
                 + digitValOf y4
      let mo := digitValOf m1 * 10 + digitValOf m2
      let d := digitValOf d1 * 10 + digitValOf d2
      let h := digitValOf h1 * 10 + digitValOf h2
      let mi := digitValOf i1 * 10 + digitValOf i2
      let sec := digitValOf s1 * 10 + digitValOf s2
      if 1 ≤ mo ∧ mo ≤ 12 ∧ 1 ≤ d ∧ d ≤ daysInMonth y mo ∧
         h ≤ 23 ∧ mi ≤ 59 ∧ sec ≤ 59 then
        match parseRFC3339Tail rest with
        | some nanos => some ⟨y, mo, d, h, mi, sec, nanos⟩
        | none => none
      else none
    else none
  | _, _ => none

/-! ## The memory record (types.go) -/

structure Memory where
  id : Str
  title : Str
  content : Str
  tags : List Str
  createdAt : DateTime
  source : Str
  importance : Int
deriving DecidableEq, Repr

/-- The Go zero value of the Memory struct, from which the parser starts
filling fields (nil slices are the empty list). -/
def zeroMemory : Memory := ⟨[], [], [], [], zeroDateTime, [], 0⟩

/-! ## The trigger framework (memory_trigger.go)

Times and durations are nanosecond counts on one axis, so that
now.Sub(lastTime) is subtraction. -/

structure PeriodicTrigger where
  interval : Int
  lastTime : Int
deriving DecidableEq, Repr

/-- NewPeriodicTrigger: the last-fired timestamp starts at time.Now(), the
construction time. -/
def NewPeriodicTrigger (interval : Int) (now : Int) : PeriodicTrigger :=
  ⟨interval, now⟩

/-- PeriodicTrigger.ShouldTrigger: fires iff now - lastTime >= interval;
when it fires, lastTime is reset to now.  The boolean result and the
mutated trigger are returned. -/
def PeriodicTrigger.ShouldTrigger (t : PeriodicTrigger) (now : Int) :
    Bool × PeriodicTrigger :=
  if now - t.lastTime ≥ t.interval then (true, { t with lastTime := now })
  else (false, t)

/-! ## The durable markdown format (memory_manager.go) -/

def headerStr : Str := ("# Trading-GPT 记忆\n\n").data

/-- The block marker that generateMemoriesMarkdown writes and
parseMemoriesFromMarkdown splits on. -/
def markSep : Str := ("## 记忆 ").data

def idLabel : Str := ("- **ID**:").data

def titleLabel : Str := ("- **标题**:").data

def tagsLabel : Str := ("- **标签**:").data

def timeLabel : Str := ("- **创建时间**:").data

def sourceLabel : Str := ("- **来源**:").data

def impLabel : Str := ("- **重要性**:").data

def commaSp : Str := (", ").data

/-- One record block of generateMemoriesMarkdown, for 1-based ordinal
ord: the marker line, six metadata lines, a blank line, the content and a
blank line. -/
def genBlock (ord : Nat) (m : Memory) : Str :=
  markSep ++ natToStr ord ++ '\n' ::
  (idLabel ++ ' ' :: m.id ++ '\n' ::
  (titleLabel ++ ' ' :: m.title ++ '\n' ::
  (tagsLabel ++ ' ' :: joinGo commaSp m.tags ++ '\n' ::
  (timeLabel ++ ' ' :: formatPrimaryTime m.createdAt ++ '\n' ::
  (sourceLabel ++ ' ' :: m.source ++ '\n' ::
  (impLabel ++ ' ' :: intToStr m.importance ++ '\n' :: '\n' ::
  (m.content ++ '\n' :: '\n' :: [])))))))

def genBlocks (i : Nat) : List Memory → Str
  | [] => []
  | m :: rest => genBlock (i + 1) m ++ genBlocks (i + 1) rest

/-- generateMemoriesMarkdown: the document header followed by the blocks,
numbered from 1. -/
def generateMemoriesMarkdown (ms : List Memory) : Str :=
  headerStr ++ genBlocks 0 ms

/-- One iteration of the metadata loop of parseMemoriesFromMarkdown, on
an already trimmed non-empty line: the first matching label wins, a line
matching no label is ignored.  now is the time.Now() fallback used when
both timestamp formats fail. -/
def applyMetaLine (now : DateTime) (m : Memory) (t : Str) : Memory :=
  if leadsWith idLabel t then
    { m with id := trimSpace (t.drop idLabel.length) }
  else if leadsWith titleLabel t then
    { m with title := trimSpace (t.drop titleLabel.length) }
  else if leadsWith tagsLabel t then
    { m with tags := ((trimSpace (t.drop tagsLabel.length)).splitOn ',').map trimSpace }
  else if leadsWith timeLabel t then
    { m with createdAt :=
        match parsePrimaryTime (trimSpace (t.drop timeLabel.length)) with
        | some dt => dt
        | none =>
          match parseRFC3339Time (trimSpace (t.drop timeLabel.length)) with
          | some dt => dt
          | none => now }
  else if leadsWith sourceLabel t then
    { m with source := trimSpace (t.drop sourceLabel.length) }
  else if leadsWith impLabel t then
    match parseGoInt (trimSpace (t.drop impLabel.length)) with
    | some v => { m with importance := v }
    | none => m
  else m

/-- The metadata loop of parseMemoriesFromMarkdown: trim each line, stop
at the first blank line and return the remaining lines as the content
lines; if no blank line occurs the content lines are empty. -/
def parseMeta (now : DateTime) (m : Memory) : List Str → Memory × List Str
  | [] => (m, [])
  | l :: ls =>
    let t := trimSpace l
    if t = [] then (m, ls)
    else parseMeta now (applyMetaLine now m t) ls

/-- The per-section loop of parseMemoriesFromMarkdown over the sections
after the first: a section with fewer than six lines is skipped; a parsed
record with an empty id receives a fresh uuid (modelled by the stream
fresh, indexed by how many uuids were consumed so far). -/
def parseSections (now : DateTime) (fresh : Nat → Str) :
    List Str → Nat → List Memory
  | [], _ => []
  | sec :: rest, k =>
    let lines := sec.splitOn '\n'
    if lines.length < 6 then parseSections now fresh rest k
    else
      let pr := parseMeta now zeroMemory lines
      let m1 := { pr.1 with content := trimSpace (List.intercalate ['\n'] pr.2) }
      if m1.id.isEmpty then
        { m1 with id := fresh k } :: parseSections now fresh rest (k + 1)
      else
        m1 :: parseSections now fresh rest k

/-- parseMemoriesFromMarkdown: split the document at the block marker,
skip the part before the first marker, and parse each remaining section.
The function in the source never returns an error. -/
def parseMemoriesFromMarkdown (now : DateTime) (fresh : Nat → Str)
    (content : Str) : List Memory :=
  let sections := splitGo markSep content
  if sections.length ≤ 1 then []
  else parseSections now fresh (sections.drop 1) 0

/-! ## Errors and results

Errors are the errors package values the code builds: a base error or an
errors.Wrap with its context message.  A public method that tries to take
the managers RWMutex while it is already held never returns: the result
blocked models that (Go sync mutexes are not reentrant and the store is
used by one sequential caller). -/

inductive GoErr where
  | notInitialized
  | mkdirFailed
  | writeFailed
  | readFailed
  | llmFailed
  | emptyLLMResponse
  | wrap (context : Str) (cause : GoErr)
deriving DecidableEq, Repr

inductive GoResult (α : Type) where
  | ok (a : α)
  | err (e : GoErr)
  | blocked
deriving DecidableEq, Repr

def createDirMsg : Str := ("failed to create memory directory").data

def loadMsg : Str := ("failed to load memories from file").data

def createFileMsg : Str := ("failed to create initial memory file").data

def saveMemMsg : Str := ("failed to save memory to file").data

def writeMsg : Str := ("failed to write memory file").data

def readMsg : Str := ("failed to read memory file").data

def getAllMsg : Str := ("failed to get all memories").data

def evalRelMsg : Str := ("failed to evaluate memory relevance").data

def llmCallMsg : Str := ("failed to call LLM for relevance evaluation").data

/-! ## The filesystem -/

/-- The filesystem: the directories that exist, the files and their
contents, and whether MkdirAll and WriteFile succeed. -/
structure World where
  dirs : List Str
  files : List (Str × Str)
  mkdirOk : Bool
  writeOk : Bool
deriving DecidableEq, Repr

def dirExists (w : World) (d : Str) : Bool := w.dirs.contains d

def readFileW (w : World) (path : Str) : Option Str := w.files.lookup path

def fileExists (w : World) (path : Str) : Bool := (readFileW w path).isSome

def writeFileW (w : World) (path content : Str) : World :=
  { w with files := (path, content) :: w.files.filter (fun pr => ¬ pr.1 == path) }

/-- filepath.Dir for slash-separated paths: everything before the final
slash (the root staying the root), or the dot path when there is no
slash. -/
def dirOf (path : Str) : Str :=
  if occursIn ['/'] path then
    match path.reverse.dropWhile (fun c => !(c == '/')) with
    | ['/'] => ['/']
    | '/' :: rest => rest.reverse
    | _ => ['.']
  else ['.']

/-! ## The memory manager (memory_manager.go) -/

structure MemoryManager where
  filePath : Str
  memories : List Memory
  locked : Bool
  initialized : Bool
deriving DecidableEq, Repr

def NewMemoryManager (filePath : Str) : MemoryManager :=
  { filePath := filePath, memories := [], locked := false, initialized := false }

/-- MemoryManager.saveMemoriesToFile (private, called with the lock already
managed by the caller): generate the markdown, ensure the directory
exists, write the file.  The world is returned in both outcomes, because
a directory created by MkdirAll persists even when the write then
fails. -/
def saveMemoriesToFile (m : MemoryManager) (w : World) :
    Option GoErr × World :=
  let content := generateMemoriesMarkdown m.memories
  let dir := dirOf m.filePath
  let step :=
    if ¬ dirExists w dir then
      (if w.mkdirOk then (none, { w with dirs := dir :: w.dirs })
       else (some (GoErr.wrap createDirMsg .mkdirFailed), w))
    else (none, w)
  match step with
  | (some e, w1) => (some e, w1)
  | (none, w1) =>
    if w1.writeOk then (none, writeFileW w1 m.filePath content)
    else (some (GoErr.wrap writeMsg .writeFailed), w1)

/-- The outcome of a public save: the returned error value and the
filesystem afterwards. -/
structure SaveOut where
  result : GoResult Unit
  world : World
deriving DecidableEq, Repr

/-- MemoryManager.SaveMemories: takes the write lock (no initialization
check in the source), then saves.  The in-memory state is unchanged. -/
def MemoryManager.SaveMemories (m : MemoryManager) (w : World) : SaveOut :=
  if m.locked then ⟨.blocked, w⟩
  else
    match saveMemoriesToFile m w with
    | (none, w1) => ⟨.ok (), w1⟩
    | (some e, w1) => ⟨.err e, w1⟩

/-- MemoryManager.loadMemoriesFromFile (private): read the file; an empty
file is the empty record list; otherwise parse (which never fails). -/
def loadMemoriesFromFile (m : MemoryManager) (w : World) (now : DateTime)
    (fresh : Nat → Str) : GoResult MemoryManager :=
  match readFileW w m.filePath with
  | none => .err (.wrap readMsg .readFailed)
  | some data =>
    if data = [] then .ok { m with memories := [] }
    else .ok { m with memories := parseMemoriesFromMarkdown now fresh data }

/-- MemoryManager.Initialize: under the write lock, ensure the directory
exists, then load the file if it exists, else create it by calling the
public SaveMemories — which tries to take the lock that Initialize is
already holding. -/
def MemoryManager.Initialize (m : MemoryManager) (w : World)
    (now : DateTime) (fresh : Nat → Str) : GoResult (MemoryManager × World) :=
  if m.locked then .blocked
  else
    let ml := { m with locked := true }
    if ml.initialized then .ok ({ ml with locked := false }, w)
    else
      let dir := dirOf ml.filePath
      match (if ¬ dirExists w dir then
               (if w.mkdirOk then GoResult.ok { w with dirs := dir :: w.dirs }
                else GoResult.err (.wrap createDirMsg .mkdirFailed))
             else GoResult.ok w) with
      | .err e => .err e
      | .blocked => .blocked
      | .ok w1 =>
        if fileExists w1 ml.filePath then
          match loadMemoriesFromFile ml w1 now fresh with
          | .err e => .err (.wrap loadMsg e)
          | .blocked => .blocked
          | .ok m2 => .ok ({ m2 with initialized := true, locked := false }, w1)
        else
          let so := MemoryManager.SaveMemories ml w1
          match so.result with
          | .err e => .err (.wrap createFileMsg e)
          | .blocked => .blocked
          | .ok _ => .ok ({ ml with initialized := true, locked := false }, so.world)

/-- MemoryManager.AddMemory mutates the receiver before persisting, so its
outcome is the returned value together with the new manager and world
state; on a failed persist the appended record stays (no rollback). -/
structure AddOut where
  result : GoResult Memory
  mgr : MemoryManager
  world : World
deriving DecidableEq, Repr

/-- MemoryManager.AddMemory: under the write lock, fail if uninitialized;
otherwise construct the record (fresh uuid newId, current time now),
append it, persist the whole collection. -/
def MemoryManager.AddMemory (m : MemoryManager) (w : World)
    (title content : Str) (tags : List Str) (source : Str)
    (importance : Int) (newId : Str) (now : DateTime) : AddOut :=
  if m.locked then ⟨.blocked, m, w⟩
  else if ¬ m.initialized then ⟨.err .notInitialized, m, w⟩
  else
    let mem : Memory :=
      { id := newId, title := title, content := content, tags := tags,
        createdAt := now, source := source, importance := importance }
    let m1 := { m with memories := m.memories ++ [mem] }
    match saveMemoriesToFile m1 w with
    | (none, w1) => ⟨.ok mem, m1, w1⟩
    | (some e, w1) => ⟨.err (.wrap saveMemMsg e), m1, w1⟩

/-- MemoryManager.GetAllMemories: under the read lock, fail if
uninitialized, else return a copy of the records in insertion order. -/
def MemoryManager.GetAllMemories (m : MemoryManager) :
    GoResult (List Memory) :=
  if m.locked then .blocked
  else if ¬ m.initialized then .err .notInitialized
  else .ok m.memories

/-- The query skip condition of the RetrieveMemories loop: a non-empty
query that case-insensitively matches neither the title nor the
content. -/
def queryRejects (query : Str) (mem : Memory) : Bool :=
  !query.isEmpty &&
  !occursIn (toLowerStr query) (toLowerStr mem.title) &&
  !occursIn (toLowerStr query) (toLowerStr mem.content)

/-- The tag skip condition of the RetrieveMemories loop: a non-empty tag
list in which no requested tag case-insensitively equals any record
tag. -/
def tagRejects (tags : List Str) (mem : Memory) : Bool :=
  !tags.isEmpty &&
  !(tags.any (fun tag => mem.tags.any (fun mt => toLowerStr tag == toLowerStr mt)))

/-- MemoryManager.RetrieveMemories: under the read lock, fail if
uninitialized; with no query and no tags return all records; otherwise
filter in insertion order and truncate to limit when 0 < limit < the
match count. -/
def MemoryManager.RetrieveMemories (m : MemoryManager) (query : Str)
    (tags : List Str) (limit : Int) : GoResult (List Memory) :=
  if m.locked then .blocked
  else if ¬ m.initialized then .err .notInitialized
  else if query = [] ∧ tags = [] then .ok m.memories
  else
    let results := m.memories.filter
      (fun mem => !queryRejects query mem && !tagRejects tags mem)
    if 0 < limit ∧ limit < (results.length : Int) then
      .ok (results.take limit.toNat)
    else .ok results

/-! ## The LLM relevance retriever (memory_retriever.go) -/

/-- The per-line score of evaluateRelevance: the line is trimmed; an empty
line is skipped (leaving the zero of make); a Sscanf failure logs and
scores zero; the value is clamped into [0, 10]. -/
def lineScore (l : Str) : Int :=
  let t := trimSpace l
  if t = [] then 0
  else
    match parseGoInt t with
    | none => 0
    | some v => if v < 0 then 0 else if v > 10 then 10 else v

/-- The score slice of evaluateRelevance: make([]int, n) of zeros, then
scores[i] set from response line i for i below both n and the line
count. -/
def relevanceScores (n : Nat) (responseText : Str) : List Int :=
  let lines := responseText.splitOn '\n'
  (List.range n).map (fun i => if h : i < lines.length then lineScore lines[i] else 0)

/-- The outcome of the llm.GenerateContent call: an error, or the choice
contents of the response. -/
inductive LLMOutcome where
  | fail
  | resp (choices : List Str)

/-- MemoryRetriever.evaluateRelevance after the prompt is built: propagate
a call failure; an absent choice or empty first choice text is the empty
response error; otherwise the positional score list. -/
def evaluateRelevance (memories : List Memory) (llm : LLMOutcome) :
    GoResult (List Int) :=
  match llm with
  | .fail => .err (.wrap llmCallMsg .llmFailed)
  | .resp choices =>
    match choices with
    | [] => .err .emptyLLMResponse
    | c0 :: _ =>
      if c0 = [] then .err .emptyLLMResponse
      else .ok (relevanceScores memories.length c0)

structure ScoredMemory where
  memory : Memory
  score : Int
deriving DecidableEq, Repr

/-- The contract of sort.Slice with less i j = score i > score j: some
permutation of the input slice that is non-increasing in score.
sort.Slice documents that the sort is NOT guaranteed to be stable, so the
output is a relation over permutations, not a function. -/
def sortSliceDesc (inp out : List ScoredMemory) : Prop :=
  inp.Perm out ∧ out.Pairwise (fun a b => b.score ≤ a.score)

/-- The result count of RetrieveRelevantMemories: the record count,
lowered to maxResults when that is positive and smaller. -/
def resultCount (n : Nat) (maxResults : Int) : Nat :=
  if 0 < maxResults ∧ maxResults < (n : Int) then maxResults.toNat else n

/-- The scored stage of RetrieveRelevantMemories: zip the records with
their scores, sort with sort.Slice, truncate. -/
def retrieveScored (memories : List Memory) (scores : List Int)
    (maxResults : Int) (scoredOut : List ScoredMemory) : Prop :=
  ∃ sorted,
    sortSliceDesc (List.zipWith (fun m s => ScoredMemory.mk m s) memories scores)
      sorted ∧
    scoredOut = sorted.take (resultCount memories.length maxResults)

/-- MemoryRetriever.RetrieveRelevantMemories as a relation between the
store state, the LLM outcome and the possible results: fetch all records
(propagating failure), return empty immediately on an empty store, score,
sort (unstably) and truncate. -/
def RetrieveRelevantMemories (m : MemoryManager) (llm : LLMOutcome)
    (maxResults : Int) (out : GoResult (List Memory)) : Prop :=
  match MemoryManager.GetAllMemories m with
  | .blocked => out = .blocked
  | .err e => out = .err (.wrap getAllMsg e)
  | .ok memories =>
    if memories = [] then out = .ok []
    else
      match evaluateRelevance memories llm with
      | .blocked => out = .blocked
      | .err e => out = .err (.wrap evalRelMsg e)
      | .ok scores =>
        ∃ scoredOut, retrieveScored memories scores maxResults scoredOut ∧
          out = .ok (scoredOut.map ScoredMemory.memory)

/-! ## Concrete fixtures used by counterexamples and witnesses -/

def examplePath : Str := ("data/memories.md").data

def exampleDir : Str := ("data").data

/-- A world whose data directory exists, with no files, where all
filesystem calls succeed. -/
def freshWorld : World :=
  { dirs := [exampleDir], files := [], mkdirOk := true, writeOk := true }

/-- The same world with WriteFile failing. -/
def failWriteWorld : World := { freshWorld with writeOk := false }

def exampleManager : MemoryManager := NewMemoryManager examplePath

/-- A stream of distinct fresh identifiers for the uuid.New() oracle. -/
def uuidStream (k : Nat) : Str := 'u' :: natToStr k

def nowDT : DateTime := ⟨2024, 5, 1, 12, 0, 0, 0⟩

/-- An initialized example store holding no records, as left by a
successful initialization. -/
def initializedManager : MemoryManager :=
  { exampleManager with initialized := true }

/-- The retrieval result as the basic-retrieval claim describes it: all
records when both query and tags are empty; otherwise the records whose
title or content case-insensitively contains the query (or the query is
empty) and that share a tag case-insensitively with the request (or no
tag is requested), in insertion order, truncated to the first limit
matches when the limit is positive and exceeded. -/
def retrieveSpec (ms : List Memory) (query : Str) (tags : List Str)
    (limit : Int) : List Memory :=
  if query = [] ∧ tags = [] then ms
  else
    let hits := ms.filter (fun mem => decide (
      (query = [] ∨ occursIn (toLowerStr query) (toLowerStr mem.title) = true ∨
        occursIn (toLowerStr query) (toLowerStr mem.content) = true) ∧
      (tags = [] ∨ ∃ t ∈ tags, ∃ mt ∈ mem.tags, toLowerStr t = toLowerStr mt)))
    if 0 < limit ∧ limit < (hits.length : Int) then hits.take limit.toNat
    else hits

/-- The tie-stability property the relevance-sort claim asserts: in the
scored result, two entries with equal scores appear in the order of their
positions in the zipped store list. -/
def keepsStoreOrderOnTies (ms : List Memory) (scores : List Int)
    (so : List ScoredMemory) : Prop :=
  ∀ i j (hi : i < so.length) (hj : j < so.length), i < j →
    (so.get ⟨i, hi⟩).score = (so.get ⟨j, hj⟩).score →
    List.indexOf (so.get ⟨i, hi⟩) (List.zipWith ScoredMemory.mk ms scores) <
      List.indexOf (so.get ⟨j, hj⟩) (List.zipWith ScoredMemory.mk ms scores)

/-- A one-letter record for small fixtures. -/
def memL (c : Char) : Memory := { zeroMemory with id := [c] }

/-- Thirteen distinct records: above twelve elements sort.Slice leaves
insertion sort for an unstable partition scheme, so a thirteen-element
tie is the realistic smallest instability. -/
def mems13 : List Memory :=
  [memL 'a', memL 'b', memL 'c', memL 'd', memL 'e', memL 'f', memL 'g',
   memL 'h', memL 'i', memL 'j', memL 'k', memL 'l', memL 'm']

def scores13 : List Int := List.replicate 13 5

def zip13 : List ScoredMemory := List.zipWith ScoredMemory.mk mems13 scores13

/-- zip13 rotated by one: an equal-score permutation that is sorted but
does not keep the store order. -/
def rot13 : List ScoredMemory := zip13.drop 1 ++ zip13.take 1

/-- The two records of the filter-correctness example of the spec. -/
def memA : Memory :=
  { zeroMemory with
      id := ['a'],
      title := ("市场急跌时的应对策略").data,
      content := ("在市场出现急跌时，应立即评估持仓风险").data,
      tags := [("风险管理").data, ("止损").data] }

def memB : Memory :=
  { zeroMemory with
      id := ['b'],
      title := ("趋势确认的重要性").data,
      tags := [("趋势交易").data] }

def mgrAB : MemoryManager :=
  { initializedManager with memories := [memA, memB] }

/-! ## Round-trip well-formedness -/

/-- The lines of one serialized record block; genBlock is the marker
followed by their newline join. -/
def blockLines (ord : Nat) (m : Memory) : List Str :=
  [natToStr ord,
   idLabel ++ ' ' :: m.id,
   titleLabel ++ ' ' :: m.title,
   tagsLabel ++ ' ' :: joinGo commaSp m.tags,
   timeLabel ++ ' ' :: formatPrimaryTime m.createdAt,
   sourceLabel ++ ' ' :: m.source,
   impLabel ++ ' ' :: intToStr m.importance,
   []] ++ m.content.splitOn '\n' ++ [[], []]

def genBody (ord : Nat) (m : Memory) : Str :=
  List.intercalate ['\n'] (blockLines ord m)

/-- The record bodies of a document, numbered from i + 1. -/
def bodiesList (i : Nat) : List Memory → List Str
  | [] => []
  | m :: rest => genBody (i + 1) m :: bodiesList (i + 1) rest

/-- No White_Space character at either end (what TrimSpace leaves
unchanged). -/
def noEdgeSpace (s : Str) : Prop :=
  s.head?.all (fun c => !goIsSpace c) = true ∧
  s.getLast?.all (fun c => !goIsSpace c) = true

/-- A well-formed single-line metadata value: no white space at either
end, free of newlines and of occurrences of the block marker. -/
def lineValueOK (s : Str) : Prop :=
  noEdgeSpace s ∧ '\n' ∉ s ∧ occursIn markSep s = false

/-- A well-formed tag: non-empty, comma-free, and a well-formed line
value. -/
def tagOK (t : Str) : Prop := t ≠ [] ∧ ',' ∉ t ∧ lineValueOK t

/-- The per-field well-formedness shared by the round-trip and the
empty-tags theorems: the id is non-empty (the parser replaces an empty
parsed id with a fresh uuid), the single-line fields are trimmed with no
newline and no embedded block marker, every tag is well-formed, the
content is trimmed and marker-free, and the timestamp is a valid
wall-clock time within the four-digit-year layout.  The tag list itself
may be empty here. -/
def wfBase (m : Memory) : Prop :=
  m.id ≠ [] ∧ lineValueOK m.id ∧ lineValueOK m.title ∧ lineValueOK m.source ∧
  (∀ t ∈ m.tags, tagOK t) ∧
  trimSpace m.content = m.content ∧ occursIn markSep m.content = false ∧
  validDateTime m.createdAt

/-- A well-formed record, over which the round-trip claim quantifies: a
record whose fields are well-formed and whose tag list is non-empty (an
empty tag list does not round-trip, see the empty-tags theorem). -/
def wfMemory (m : Memory) : Prop := wfBase m ∧ m.tags ≠ []

/-- A well-formed record with an empty tag list, the fixture of the
empty-tags theorem. -/
def memC : Memory :=
  { id := ("mem-0003").data,
    title := ("无标签记录").data,
    content := ("这条记忆没有任何标签").data,
    tags := [],
    createdAt := ⟨2024, 3, 1, 8, 30, 0, 500⟩,
    source := ("测试").data,
    importance := 3 }

instance (s : Str) : Decidable (noEdgeSpace s) := by
  unfold noEdgeSpace; infer_instance

instance (s : Str) : Decidable (lineValueOK s) := by
  unfold lineValueOK; infer_instance

instance (t : Str) : Decidable (tagOK t) := by
  unfold tagOK; infer_instance

instance (m : Memory) : Decidable (wfBase m) := by
  unfold wfBase; infer_instance

instance (m : Memory) : Decidable (wfMemory m) := by
  unfold wfMemory; infer_instance

/-! # Theorems -/

/-- C2, counterexample.  The claim says a freshly constructed periodic
trigger returns true on its first evaluation, for every interval.  With
interval 100 constructed at time 0, the first evaluation at time 5
returns false, because NewPeriodicTrigger initializes lastTime to the
construction time, not to zero. -/
theorem periodic_first_eval_false :
    ((NewPeriodicTrigger 100 0).ShouldTrigger 5).1 = false := by decide

/-- C2, amended claim.  ShouldTrigger of a fresh trigger returns true iff
at least the interval has elapsed since construction (so the first
evaluation is generally false, not true); a true evaluation resets
lastTime to the evaluation time and a later evaluation fires iff the
interval has elapsed since that reset; a false evaluation leaves the
trigger unchanged, so an immediate re-evaluation after a fire (elapsed
less than a positive interval) returns false. -/
theorem periodic_gating (I t0 n1 n2 : Int) :
    (((NewPeriodicTrigger I t0).ShouldTrigger n1).1 = true ↔ I ≤ n1 - t0) ∧
    (((NewPeriodicTrigger I t0).ShouldTrigger n1).1 = true →
      ((NewPeriodicTrigger I t0).ShouldTrigger n1).2.lastTime = n1 ∧
      (((((NewPeriodicTrigger I t0).ShouldTrigger n1).2).ShouldTrigger n2).1 = true ↔
        I ≤ n2 - n1)) ∧
    (((NewPeriodicTrigger I t0).ShouldTrigger n1).1 = false →
      ((NewPeriodicTrigger I t0).ShouldTrigger n1).2 = NewPeriodicTrigger I t0) := by
  unfold NewPeriodicTrigger PeriodicTrigger.ShouldTrigger
  by_cases h1 : I ≤ n1 - t0
  · by_cases h2 : I ≤ n2 - n1 <;> simp [h1, h2]
  · simp [h1]

/-- C2, witness for the amended claim: interval 100, constructed at time
0; the evaluation at time 150 fires, the immediate re-evaluation at time
160 does not. -/
theorem periodic_gating_witness :
    ((NewPeriodicTrigger 100 0).ShouldTrigger 150).1 = true ∧
    (((NewPeriodicTrigger 100 0).ShouldTrigger 150).2.ShouldTrigger 160).1 = false := by
  have h := periodic_gating 100 0 150 160
  refine ⟨h.1.mpr (by decide), ?_⟩
  have h2 := (h.2.1 (h.1.mpr (by decide))).2
  have h3 : ¬ ((100 : Int) ≤ 160 - 150) := by decide
  cases hb : ((((NewPeriodicTrigger 100 0).ShouldTrigger 150).2).ShouldTrigger 160).1
  · rfl
  · exact absurd (h2.mp hb) h3

/-- C3, counterexample.  The claim says every store operation invoked
before Initialize, SaveMemories among them, returns a not-initialized
error.  On the uninitialized example store SaveMemories performs the save
and returns no error at all: the source has no initialization check in
SaveMemories. -/
theorem saveMemories_uninitialized_no_error :
    exampleManager.initialized = false ∧
    (exampleManager.SaveMemories freshWorld).result = .ok () ∧
    (exampleManager.SaveMemories freshWorld).result ≠ .err .notInitialized := by
  refine ⟨by decide, by decide, by decide⟩

/-- C3, amended claim.  AddMemory, GetAllMemories and RetrieveMemories
invoked before Initialize has succeeded return the not-initialized error
(and AddMemory leaves the store untouched); SaveMemories however performs
no initialization check: whatever its outcome, it never returns the
not-initialized error. -/
theorem ops_before_initialize (m : MemoryManager) (w : World)
    (q : Str) (tags : List Str) (lim : Int) (title content : Str)
    (tg : List Str) (src : Str) (imp : Int) (nid : Str) (now : DateTime)
    (hinit : m.initialized = false) (hlock : m.locked = false) :
    (m.AddMemory w title content tg src imp nid now).result =
      .err .notInitialized ∧
    (m.AddMemory w title content tg src imp nid now).mgr = m ∧
    m.GetAllMemories = .err .notInitialized ∧
    m.RetrieveMemories q tags lim = .err .notInitialized ∧
    (m.SaveMemories w).result ≠ .err GoErr.notInitialized := by
  refine ⟨?_, ?_, ?_, ?_, ?_⟩
  · simp [MemoryManager.AddMemory, hinit, hlock]
  · simp [MemoryManager.AddMemory, hinit, hlock]
  · simp [MemoryManager.GetAllMemories, hinit, hlock]
  · simp [MemoryManager.RetrieveMemories, hinit, hlock]
  · simp only [MemoryManager.SaveMemories, hlock, if_false, Bool.false_eq_true]
    unfold saveMemoriesToFile
    by_cases hd : dirExists w (dirOf m.filePath)
    · by_cases hw : w.writeOk <;> simp [hd, hw]
    · by_cases hm : w.mkdirOk
      · by_cases hw : w.writeOk <;> simp [hd, hm, hw]
      · simp [hd, hm]

/-- C3, witness: the amended claim applied to the uninitialized example
store. -/
theorem ops_before_initialize_witness :
    (exampleManager.AddMemory freshWorld [] [] [] [] 5 (uuidStream 0)
        nowDT).result = .err .notInitialized ∧
    exampleManager.GetAllMemories = .err .notInitialized := by
  have h := ops_before_initialize exampleManager freshWorld [] [] 0 [] [] []
    [] 5 (uuidStream 0) nowDT (by decide) (by decide)
  exact ⟨h.1, h.2.2.1⟩

/-- C4.  The claim says Initialize on a store whose backing file does not
exist (and whose directory exists) terminates without error leaving an
empty backing file.  In the source, Initialize holds the write lock and
then calls the public SaveMemories, which tries to take that same
non-reentrant lock: the call self-deadlocks and never returns.  The
repository's own test expects this Initialize call to succeed, so the
code, not the claim, is wrong. -/
theorem initialize_missing_file_deadlocks :
    MemoryManager.Initialize exampleManager freshWorld nowDT uuidStream =
      .blocked := by decide

/-- C8.  On an initialized store whose write fails, AddMemory returns the
wrapped write error, yet the record stays appended in memory: a later
GetAllMemories returns it, and a later SaveMemories against a writable
world persists the whole collection including it. -/
theorem addMemory_failed_write_keeps_record (m : MemoryManager) (w : World)
    (title content : Str) (tags : List Str) (src : Str) (imp : Int)
    (nid : Str) (now : DateTime)
    (hinit : m.initialized = true) (hlock : m.locked = false)
    (hw : w.writeOk = false) (hmk : w.mkdirOk = true) :
    (m.AddMemory w title content tags src imp nid now).result =
      .err (.wrap saveMemMsg (.wrap writeMsg .writeFailed)) ∧
    (m.AddMemory w title content tags src imp nid now).mgr.memories =
      m.memories ++ [⟨nid, title, content, tags, now, src, imp⟩] ∧
    (m.AddMemory w title content tags src imp nid now).mgr.GetAllMemories =
      .ok (m.memories ++ [⟨nid, title, content, tags, now, src, imp⟩]) ∧
    (∀ w2 : World, w2.writeOk = true →
      dirExists w2 (dirOf m.filePath) = true →
      ((m.AddMemory w title content tags src imp nid now).mgr.SaveMemories
          w2).result = .ok () ∧
      ((m.AddMemory w title content tags src imp nid now).mgr.SaveMemories
          w2).world =
        writeFileW w2 m.filePath
          (generateMemoriesMarkdown
            (m.memories ++ [⟨nid, title, content, tags, now, src, imp⟩]))) := by
  have hsave : ∀ mm : MemoryManager, saveMemoriesToFile mm w =
      (some (GoErr.wrap writeMsg .writeFailed),
        if ¬ dirExists w (dirOf mm.filePath) = true then
          { w with dirs := dirOf mm.filePath :: w.dirs } else w) := by
    intro mm
    unfold saveMemoriesToFile
    by_cases hd : dirExists w (dirOf mm.filePath) <;> simp [hd, hmk, hw]
  refine ⟨?_, ?_, ?_, ?_⟩
  · simp [MemoryManager.AddMemory, hinit, hlock, hsave]
  · simp [MemoryManager.AddMemory, hinit, hlock, hsave]
  · simp [MemoryManager.AddMemory, hinit, hlock, hsave,
      MemoryManager.GetAllMemories]
  · intro w2 hw2 hd2
    have hmgr : (m.AddMemory w title content tags src imp nid now).mgr =
        { m with memories :=
            m.memories ++ [⟨nid, title, content, tags, now, src, imp⟩] } := by
      simp [MemoryManager.AddMemory, hinit, hlock, hsave]
    rw [hmgr]
    have hsave2 : ∀ mm : MemoryManager,
        dirExists w2 (dirOf mm.filePath) = true →
        saveMemoriesToFile mm w2 =
        (none, writeFileW w2 mm.filePath
          (generateMemoriesMarkdown mm.memories)) := by
      intro mm hd
      unfold saveMemoriesToFile
      simp [hd, hw2]
    constructor <;> simp [MemoryManager.SaveMemories, hlock, hsave2, hd2]

/-- C8, witness: the failed-write AddMemory on the initialized example
store keeps the record, and the retry against the writable world
persists it. -/
theorem addMemory_failed_write_keeps_record_witness :
    (initializedManager.AddMemory failWriteWorld ('t' :: []) ('c' :: [])
        [] ('s' :: []) 5 (uuidStream 0) nowDT).result =
      .err (.wrap saveMemMsg (.wrap writeMsg .writeFailed)) ∧
    ((initializedManager.AddMemory failWriteWorld ('t' :: []) ('c' :: [])
        [] ('s' :: []) 5 (uuidStream 0) nowDT).mgr.SaveMemories
        freshWorld).result = .ok () := by
  have h := addMemory_failed_write_keeps_record initializedManager
    failWriteWorld ('t' :: []) ('c' :: []) [] ('s' :: []) 5 (uuidStream 0)
    nowDT (by decide) (by decide) (by decide) (by decide)
  exact ⟨h.1, (h.2.2.2 freshWorld (by decide) (by decide)).1⟩

/-- The clamped line score always lies in [0, 10]. -/
theorem lineScore_bounds (l : Str) : 0 ≤ lineScore l ∧ lineScore l ≤ 10 := by
  unfold lineScore
  by_cases ht : trimSpace l = []
  · simp [ht]
  · simp only [ht, if_false]
    cases hp : parseGoInt (trimSpace l) with
    | none => simp
    | some v =>
      by_cases h1 : v < 0
      · simp [h1]
      · by_cases h2 : v > 10 <;> simp [h1, h2] <;> omega

/-- The element of a mapped range at an in-range index. -/
theorem getD_map_range (n : Nat) (f : Nat → Int) (i : Nat) (hi : i < n) :
    ((List.range n).map f).getD i 0 = f i := by
  simp [List.getD_eq_getElem?_getD, List.getElem?_map, List.getElem?_range, hi]

/-- C7.  On a non-empty first choice text, evaluateRelevance succeeds and
assigns scores positionally: score i is the clamped parse of response
line i (an unparseable or missing line scoring zero, which the uniform
equation covers because the empty-line score is zero), records beyond the
last line score zero, and every score lies in [0, 10]. -/
theorem evaluateRelevance_positional (memories : List Memory)
    (c0 : Str) (cs : List Str) (h0 : c0 ≠ []) :
    evaluateRelevance memories (.resp (c0 :: cs)) =
      .ok (relevanceScores memories.length c0) ∧
    (relevanceScores memories.length c0).length = memories.length ∧
    (∀ i, i < memories.length →
      (relevanceScores memories.length c0).getD i 0 =
        lineScore ((c0.splitOn '\n').getD i [])) ∧
    (∀ i, (c0.splitOn '\n').length ≤ i →
      (relevanceScores memories.length c0).getD i 0 = 0) ∧
    (∀ x ∈ relevanceScores memories.length c0, 0 ≤ x ∧ x ≤ 10) := by
  refine ⟨by simp [evaluateRelevance, h0], by simp [relevanceScores], ?_, ?_, ?_⟩
  · intro i hi
    unfold relevanceScores
    rw [getD_map_range memories.length _ i hi]
    by_cases hl : i < (c0.splitOn '\n').length
    · simp only [hl, dif_pos]
      congr 1
      simp [List.getD_eq_getElem?_getD, List.getElem?_eq_getElem hl]
    · simp only [hl, dif_neg, not_false_iff]
      have : (c0.splitOn '\n').getD i [] = [] := by
        simp [List.getD_eq_getElem?_getD, List.getElem?_eq_none (Nat.le_of_not_lt hl)]
      rw [this]
      simp [lineScore, trimSpace]
  · intro i hle
    by_cases hi : i < memories.length
    · unfold relevanceScores
      rw [getD_map_range memories.length _ i hi]
      have hl : ¬ i < (c0.splitOn '\n').length := by omega
      simp [hl]
    · have : (relevanceScores memories.length c0).length ≤ i := by
        simp [relevanceScores]; omega
      simp [List.getD_eq_getElem?_getD, List.getElem?_eq_none this]
  · intro x hx
    unfold relevanceScores at hx
    simp only [List.mem_map, List.mem_range] at hx
    obtain ⟨i, hi, rfl⟩ := hx
    by_cases hl : i < (c0.splitOn '\n').length
    · simp only [hl, dif_pos]
      exact lineScore_bounds _
    · simp [hl]

/-- C7, witness: three records against the response text 8, an
unparseable line, and nothing more: scores 8, 0, 0. -/
theorem evaluateRelevance_positional_witness :
    evaluateRelevance [memL 'a', memL 'b', memL 'c']
        (.resp [("8\nxx").data]) = .ok [8, 0, 0] := by
  have h := evaluateRelevance_positional [memL 'a', memL 'b', memL 'c']
    (("8\nxx").data) [] (by decide)
  rw [h.1]
  rfl

/-- A member of the zipped scored list has its record in the store
list. -/
theorem zipWith_mk_mem_fst :
    ∀ (ms : List Memory) (ss : List Int) (p : ScoredMemory),
      p ∈ List.zipWith ScoredMemory.mk ms ss → p.memory ∈ ms := by
  intro ms
  induction ms with
  | nil => intro ss p h; simp at h
  | cons m rest ih =>
    intro ss p h
    cases ss with
    | nil => simp at h
    | cons s ss2 =>
      simp only [List.zipWith, List.mem_cons] at h
      rcases h with h | h
      · subst h; exact List.mem_cons_self _ _
      · exact List.mem_cons_of_mem _ (ih ss2 p h)

/-- C9.  A successful RetrieveRelevantMemories on a store with records
returns exactly min(n, maxResults) records when maxResults is positive
and all n records otherwise: zero-scored records are not filtered out,
every returned record comes from the store. -/
theorem retrieveRelevant_length (m : MemoryManager) (llm : LLMOutcome)
    (mr : Int) (out : List Memory)
    (hlock : m.locked = false) (hinit : m.initialized = true)
    (hne : m.memories ≠ [])
    (hrel : RetrieveRelevantMemories m llm mr (.ok out)) :
    ((out.length : Int) =
      if 0 < mr then min (m.memories.length : Int) mr
      else (m.memories.length : Int)) ∧
    ∀ x ∈ out, x ∈ m.memories := by
  have hget : m.GetAllMemories = .ok m.memories := by
    simp [MemoryManager.GetAllMemories, hlock, hinit]
  unfold RetrieveRelevantMemories at hrel
  rw [hget] at hrel
  simp only [hne, if_neg hne] at hrel
  cases llm with
  | fail => simp [evaluateRelevance] at hrel
  | resp choices =>
    cases choices with
    | nil => simp [evaluateRelevance] at hrel
    | cons c0 cs =>
      by_cases hc : c0 = []
      · simp [evaluateRelevance, hc] at hrel
      · rw [show evaluateRelevance m.memories (.resp (c0 :: cs)) =
            .ok (relevanceScores m.memories.length c0) by
            simp [evaluateRelevance, hc]] at hrel
        obtain ⟨so, ⟨sorted, ⟨hperm, _⟩, hso⟩, hout⟩ := hrel
        have hout2 : out = so.map ScoredMemory.memory := by
          cases hout with | refl => rfl
        have hscl : (relevanceScores m.memories.length c0).length =
            m.memories.length := by simp [relevanceScores]
        have hzl : (List.zipWith ScoredMemory.mk m.memories
            (relevanceScores m.memories.length c0)).length =
            m.memories.length := by
          rw [List.length_zipWith, hscl, Nat.min_self]
        have hsl : sorted.length = m.memories.length := by
          rw [← hperm.length_eq, hzl]
        have hsol : so.length = min (resultCount m.memories.length mr)
            m.memories.length := by
          rw [hso, List.length_take, hsl]
        constructor
        · rw [hout2, List.length_map, hsol]
          unfold resultCount
          by_cases hp : 0 < mr
          · by_cases hlt : mr < (m.memories.length : Int)
            · simp only [hp, hlt, and_self, if_true, if_pos]
              omega
            · simp only [hp, hlt, and_false, if_false, if_pos]
              omega
          · simp only [hp, false_and, if_false, if_neg hp]
            omega
        · intro x hx
          rw [hout2] at hx
          simp only [List.mem_map] at hx
          obtain ⟨p, hp, rfl⟩ := hx
          have hp2 : p ∈ sorted := by
            rw [hso] at hp
            exact (List.take_sublist _ _).subset hp
          have hp3 : p ∈ List.zipWith ScoredMemory.mk m.memories
              (relevanceScores m.memories.length c0) :=
            hperm.mem_iff.mpr hp2
          exact zipWith_mk_mem_fst _ _ _ hp3

/-- C9, witness: two records, response 8 then 5, maxResults 1: exactly
one record returned, and it comes from the store. -/
theorem retrieveRelevant_length_witness :
    (((([memA] : List Memory)).length : Int) =
      if (0 : Int) < 1 then min ((mgrAB.memories.length : Int)) 1
      else (mgrAB.memories.length : Int)) ∧
    ∀ x ∈ ([memA] : List Memory), x ∈ mgrAB.memories := by
  have hrel : RetrieveRelevantMemories mgrAB (.resp [("8\n5").data]) 1
      (.ok [memA]) := by
    unfold RetrieveRelevantMemories
    rw [show mgrAB.GetAllMemories = .ok mgrAB.memories from by decide]
    simp only [show (mgrAB.memories = []) = False by simp [mgrAB, memA, memB],
      if_false]
    rw [show evaluateRelevance mgrAB.memories (.resp [("8\n5").data]) =
        .ok [8, 5] from by decide]
    refine ⟨[⟨memA, 8⟩], ⟨[⟨memA, 8⟩, ⟨memB, 5⟩], ⟨by decide, by decide⟩,
      by decide⟩, by decide⟩
  exact retrieveRelevant_length mgrAB (.resp [("8\n5").data]) 1 [memA]
    (by decide) (by decide) (by simp [mgrAB, memA, memB]) hrel

/-- C5, counterexample.  The claim asserts the sort stage keeps the store
order of equal-score records (a stable sort).  The code uses sort.Slice,
whose contract guarantees a sorted permutation but expressly not
stability: with thirteen records of equal score, the rotation rot13 is an
admissible sort.Slice output, and it reverses the store order of the
first and last records. -/
theorem relevance_sort_not_stable :
    ¬ (∀ (ms : List Memory) (scores : List Int) (mr : Int)
        (so : List ScoredMemory),
        retrieveScored ms scores mr so → keepsStoreOrderOnTies ms scores so) := by
  intro h
  have hrs : retrieveScored mems13 scores13 0 rot13 := by
    exact ⟨rot13, ⟨by decide, by decide⟩, by decide⟩
  have := h mems13 scores13 0 rot13 hrs 0 12 (by decide) (by decide)
    (by decide) (by decide)
  exact absurd this (by decide)

/-- C5, amended claim.  The scored stage of RetrieveRelevantMemories
yields the records in non-increasing score order, of the expected
truncated length, and drawn from the store; the relative order of
equal-score records is unspecified, because sort.Slice does not guarantee
a stable sort (sort.SliceStable would). -/
theorem relevance_sort_descending (ms : List Memory) (scores : List Int)
    (mr : Int) (so : List ScoredMemory)
    (h : retrieveScored ms scores mr so) :
    so.Pairwise (fun a b => b.score ≤ a.score) ∧
    so.length = min (resultCount ms.length mr) (min ms.length scores.length) ∧
    ∀ p ∈ so, p ∈ List.zipWith ScoredMemory.mk ms scores := by
  obtain ⟨sorted, ⟨hperm, hpair⟩, hso⟩ := h
  subst hso
  refine ⟨hpair.sublist (List.take_sublist _ _), ?_, ?_⟩
  · rw [List.length_take, ← hperm.length_eq, List.length_zipWith]
  · intro p hp
    exact hperm.mem_iff.mpr ((List.take_sublist _ _).subset hp)

/-- C5, witness for the amended claim: two records scored 8 and 5 with
maxResults 1 give the descending singleton drawn from the store. -/
theorem relevance_sort_descending_witness :
    ([(⟨memA, 8⟩ : ScoredMemory)] : List ScoredMemory).Pairwise
      (fun a b => b.score ≤ a.score) ∧
    ([(⟨memA, 8⟩ : ScoredMemory)] : List ScoredMemory).length =
      min (resultCount 2 1) (min 2 2) ∧
    ∀ p ∈ ([(⟨memA, 8⟩ : ScoredMemory)] : List ScoredMemory),
      p ∈ List.zipWith ScoredMemory.mk [memA, memB] [8, 5] := by
  have h := relevance_sort_descending [memA, memB] [8, 5] 1
    [(⟨memA, 8⟩ : ScoredMemory)]
    ⟨[⟨memA, 8⟩, ⟨memB, 5⟩], ⟨by decide, by decide⟩, by decide⟩
  exact ⟨h.1, by simpa using h.2.1, h.2.2⟩

/-- C6.  For an initialized store, RetrieveMemories computes exactly the
claim's specification: all records when query and tags are both empty,
otherwise the case-insensitive query-and-tag filter in insertion order
with truncation to a positive exceeded limit. -/
theorem retrieveMemories_filter_correct (m : MemoryManager) (q : Str)
    (tags : List Str) (lim : Int)
    (hlock : m.locked = false) (hinit : m.initialized = true) :
    m.RetrieveMemories q tags lim = .ok (retrieveSpec m.memories q tags lim) := by
  unfold MemoryManager.RetrieveMemories retrieveSpec
  simp only [hlock, hinit, Bool.false_eq_true, if_false, Bool.not_true,
    not_false_iff, if_true]
  by_cases hqt : q = [] ∧ tags = []
  · simp [hqt]
  · simp only [hqt, if_false]
    have hfe : m.memories.filter
        (fun mem => !queryRejects q mem && !tagRejects tags mem) =
        m.memories.filter (fun mem => decide (
          (q = [] ∨ occursIn (toLowerStr q) (toLowerStr mem.title) = true ∨
            occursIn (toLowerStr q) (toLowerStr mem.content) = true) ∧
          (tags = [] ∨ ∃ t ∈ tags, ∃ mt ∈ mem.tags,
            toLowerStr t = toLowerStr mt))) := by
      apply List.filter_congr
      intro mem _
      rw [Bool.eq_iff_iff]
      simp only [queryRejects, tagRejects, Bool.and_eq_true, Bool.not_eq_true',
        Bool.and_eq_false_iff, Bool.not_eq_false', decide_eq_true_eq,
        List.isEmpty_iff, List.isEmpty_eq_true, List.any_eq_true, beq_iff_eq,
        Bool.not_eq_true, Bool.or_eq_true]
      tauto
    rw [hfe]
    simp only [not_true, if_false, ite_not, if_true]
    rw [apply_ite GoResult.ok]

/-- C6, witness: the spec's own example: querying 风险 on the two-record
store returns exactly the first record. -/
theorem retrieveMemories_filter_correct_witness :
    mgrAB.RetrieveMemories (("风险").data) [] 0 = .ok [memA] := by
  have h := retrieveMemories_filter_correct mgrAB (("风险").data) [] 0
    (by decide) (by decide)
  rw [h]
  decide

/-! ## String lemmas: HasPrefix and Contains -/

theorem leadsWith_iff_take (p : Str) : ∀ s : Str,
    leadsWith p s = true ↔ s.take p.length = p := by
  induction p with
  | nil => intro s; simp [leadsWith]
  | cons a ps ih =>
    intro s
    cases s with
    | nil => simp [leadsWith]
    | cons c cs =>
      simp only [leadsWith, Bool.and_eq_true, beq_iff_eq, List.length_cons,
        List.take_succ_cons, List.cons.injEq, ih cs]
      constructor
      · rintro ⟨rfl, h2⟩; exact ⟨rfl, h2⟩
      · rintro ⟨rfl, h2⟩; exact ⟨rfl, h2⟩

theorem leadsWith_self_append (p t : Str) : leadsWith p (p ++ t) = true := by
  rw [leadsWith_iff_take]; exact List.take_left p t

theorem leadsWith_length_le (p s : Str) (h : leadsWith p s = true) :
    p.length ≤ s.length := by
  rw [leadsWith_iff_take] at h
  have := congrArg List.length h
  rw [List.length_take] at this
  omega

theorem leadsWith_take_of (p s : Str) (k : Nat) (h : leadsWith p s = true) :
    leadsWith (p.take k) s = true := by
  rw [leadsWith_iff_take] at h
  rw [leadsWith_iff_take, List.length_take]
  conv_rhs => rw [← h]
  rw [List.take_take]

theorem leadsWith_false_pair (p q v : Str) (k : Nat) (hk1 : k ≤ p.length)
    (hk2 : k ≤ q.length) (h : leadsWith (p.take k) q = false) :
    leadsWith p (q ++ v) = false := by
  cases hlw : leadsWith p (q ++ v) with
  | false => rfl
  | true =>
    exfalso
    have h2 := leadsWith_take_of p (q ++ v) k hlw
    rw [leadsWith_iff_take, List.length_take, Nat.min_eq_left hk1,
      List.take_append_eq_append_take, Nat.sub_eq_zero_of_le hk2,
      List.take_zero, List.append_nil] at h2
    have h3 : leadsWith (p.take k) q = true := by
      rw [leadsWith_iff_take, List.length_take, Nat.min_eq_left hk1]
      exact h2
    rw [h3] at h
    exact Bool.noConfusion h

theorem occursIn_cons_false (p : Str) (c : Char) (cs : Str)
    (h : occursIn p (c :: cs) = false) :
    leadsWith p (c :: cs) = false ∧ occursIn p cs = false := by
  unfold occursIn at h
  exact Bool.or_eq_false_iff.mp h

theorem not_occursIn_head_notMem (c0 : Char) (ps a : Str) (h : c0 ∉ a) :
    occursIn (c0 :: ps) a = false := by
  induction a with
  | nil => simp [occursIn, leadsWith]
  | cons x xs ih =>
    have hx : (c0 == x) = false := by
      simp only [beq_eq_false_iff_ne, ne_eq]
      intro heq; exact h (heq ▸ List.mem_cons_self x xs)
    unfold occursIn
    simp only [leadsWith, hx, Bool.false_and, Bool.false_or]
    exact ih (fun hm => h (List.mem_cons_of_mem x hm))

theorem occursIn_append_clean (c0 : Char) (ps a b : Str) (ha : c0 ∉ a)
    (hb : occursIn (c0 :: ps) b = false) :
    occursIn (c0 :: ps) (a ++ b) = false := by
  induction a with
  | nil => simpa using hb
  | cons x xs ih =>
    have hx : (c0 == x) = false := by
      simp only [beq_eq_false_iff_ne, ne_eq]
      intro heq; exact ha (heq ▸ List.mem_cons_self x xs)
    show occursIn (c0 :: ps) (x :: (xs ++ b)) = false
    unfold occursIn
    simp only [leadsWith, hx, Bool.false_and, Bool.false_or]
    exact ih (fun hm => ha (List.mem_cons_of_mem x hm))

theorem occursIn_sep (c0 : Char) (ps : Str) (l : Str) (c : Char) (r : Str)
    (hl : occursIn (c0 :: ps) l = false) (hc : c ∉ (c0 :: ps))
    (hr : occursIn (c0 :: ps) r = false) :
    occursIn (c0 :: ps) (l ++ c :: r) = false := by
  induction l with
  | nil =>
    have hcc : (c0 == c) = false := by
      simp only [beq_eq_false_iff_ne, ne_eq]
      intro heq; exact hc (heq ▸ List.mem_cons_self c0 ps)
    show occursIn (c0 :: ps) (c :: r) = false
    unfold occursIn
    simp only [leadsWith, hcc, Bool.false_and, Bool.false_or]
    exact hr
  | cons x xs ih =>
    obtain ⟨h1, h2⟩ := occursIn_cons_false _ _ _ hl
    have ihr := ih h2
    show occursIn (c0 :: ps) (x :: (xs ++ c :: r)) = false
    unfold occursIn
    rw [Bool.or_eq_false_iff]
    refine ⟨?_, ihr⟩
    cases hlp : leadsWith (c0 :: ps) (x :: (xs ++ c :: r)) with
    | false => rfl
    | true =>
      exfalso
      rw [show x :: (xs ++ c :: r) = (x :: xs) ++ (c :: r) from rfl,
        leadsWith_iff_take, List.take_append_eq_append_take] at hlp
      by_cases hlen : (c0 :: ps).length ≤ (x :: xs).length
      · rw [Nat.sub_eq_zero_of_le hlen, List.take_zero, List.append_nil] at hlp
        have h3 : leadsWith (c0 :: ps) (x :: xs) = true := by
          rw [leadsWith_iff_take]; exact hlp
        rw [h3] at h1
        exact Bool.noConfusion h1
      · have hlen2 : (x :: xs).length < (c0 :: ps).length := by omega
        rw [List.take_of_length_le (Nat.le_of_lt hlen2)] at hlp
        have hmem : c ∈ (c0 :: ps) := by
          rw [← hlp]
          refine List.mem_append_right _ ?_
          cases hnn : (c0 :: ps).length - (x :: xs).length with
          | zero => omega
          | succ k =>
            rw [List.take_succ_cons]
            exact List.mem_cons_self c (r.take k)
        exact hc hmem

theorem leadsWith_mono (p s t : Str) (h : leadsWith p s = true) :
    leadsWith p (s ++ t) = true := by
  have hle := leadsWith_length_le p s h
  rw [leadsWith_iff_take] at h ⊢
  rw [List.take_append_eq_append_take, Nat.sub_eq_zero_of_le hle,
    List.take_zero, List.append_nil]
  exact h

theorem occursIn_append_right_true (p a b : Str) (h : occursIn p b = true) :
    occursIn p (a ++ b) = true := by
  induction a with
  | nil => simpa using h
  | cons x xs ih =>
    show occursIn p (x :: (xs ++ b)) = true
    unfold occursIn
    rw [ih, Bool.or_true]

theorem occursIn_append_left_true (p a b : Str) (h : occursIn p a = true) :
    occursIn p (a ++ b) = true := by
  induction a with
  | nil =>
    have hp : p = [] := by
      cases p with
      | nil => rfl
      | cons q qs => exact absurd h (by simp [occursIn, leadsWith])
    subst hp
    cases b with
    | nil => simp [occursIn, leadsWith]
    | cons c cs => simp [occursIn, leadsWith]
  | cons x xs ih =>
    unfold occursIn at h
    show occursIn p (x :: (xs ++ b)) = true
    unfold occursIn
    rcases Bool.or_eq_true_iff.mp h with h | h
    · have h2 := leadsWith_mono p (x :: xs) b h
      rw [List.cons_append] at h2
      rw [h2, Bool.true_or]
    · rw [ih h, Bool.or_true]

/-! ## String lemmas: TrimSpace -/

theorem trimSpace_cons_space (c : Char) (s : Str) (h : goIsSpace c = true) :
    trimSpace (c :: s) = trimSpace s := by
  unfold trimSpace
  rw [List.dropWhile_cons, if_pos h]

theorem trimSpace_eq_self_of_noEdge (s : Str) (h : noEdgeSpace s) :
    trimSpace s = s := by
  obtain ⟨h1, h2⟩ := h
  unfold trimSpace
  have hd : s.dropWhile goIsSpace = s := by
    cases s with
    | nil => rfl
    | cons c cs =>
      have hc : goIsSpace c = false := by simpa using h1
      rw [List.dropWhile_cons, if_neg (by rw [hc]; exact Bool.noConfusion)]
  rw [hd]
  have hr : s.reverse.dropWhile goIsSpace = s.reverse := by
    cases hsr : s.reverse with
    | nil => rfl
    | cons c cs =>
      have hlast : s.getLast? = some c := by
        rw [← List.head?_reverse, hsr]; rfl
      have hc : goIsSpace c = false := by
        rw [hlast] at h2; simpa using h2
      rw [List.dropWhile_cons, if_neg (by rw [hc]; exact Bool.noConfusion)]
  rw [hr, List.reverse_reverse]

theorem trimSpace_concat_space (s : Str) (c : Char) (h : goIsSpace c = true) :
    trimSpace (s ++ [c]) = trimSpace s := by
  unfold trimSpace
  rw [List.dropWhile_append]
  by_cases he : (s.dropWhile goIsSpace).isEmpty
  · rw [if_pos he]
    have hs : s.dropWhile goIsSpace = [] := by
      cases hx : s.dropWhile goIsSpace with
      | nil => rfl
      | cons a l => rw [hx] at he; simp at he
    rw [hs]
    simp [List.dropWhile, h]
  · rw [if_neg he]
    rw [List.reverse_append]
    show (([c].reverse ++ (s.dropWhile goIsSpace).reverse).dropWhile goIsSpace).reverse = _
    rw [show ([c] : Str).reverse = [c] from rfl]
    rw [show ([c] : Str) ++ (s.dropWhile goIsSpace).reverse =
      c :: (s.dropWhile goIsSpace).reverse from rfl]
    rw [List.dropWhile_cons, if_pos h]

/-! ## String lemmas: splitOn and intercalate -/

theorem splitOnP_piece_false (p : Char → Bool) : ∀ (s l : Str),
    l ∈ List.splitOnP p s → ∀ x ∈ l, p x = false := by
  intro s
  induction s with
  | nil =>
    intro l hl x hx
    rw [List.splitOnP_nil] at hl
    simp at hl
    subst hl
    simp at hx
  | cons a as ih =>
    intro l hl x hx
    rw [List.splitOnP_cons] at hl
    by_cases hpa : p a
    · rw [if_pos hpa] at hl
      rcases List.mem_cons.mp hl with h | h
      · subst h; simp at hx
      · exact ih l h x hx
    · rw [if_neg hpa] at hl
      cases hsp : List.splitOnP p as with
      | nil => exact absurd hsp (List.splitOnP_ne_nil p as)
      | cons h0 t0 =>
        rw [hsp] at hl
        simp only [List.modifyHead] at hl
        rcases List.mem_cons.mp hl with h | h
        · subst h
          rcases List.mem_cons.mp hx with h | h
          · subst h; exact Bool.eq_false_iff.mpr hpa
          · exact ih h0 (hsp ▸ List.mem_cons_self h0 t0) x h
        · exact ih l (hsp ▸ List.mem_cons_of_mem h0 h) x hx

theorem splitOn_piece_not_mem (c : Char) (s l : Str) (h : l ∈ s.splitOn c) :
    c ∉ l := by
  intro hc
  have := splitOnP_piece_false (· == c) s l h c hc
  simp at this

theorem intercalate_cons2 (sep a : Str) (rest : List Str) (h : rest ≠ []) :
    List.intercalate sep (a :: rest) = a ++ sep ++ List.intercalate sep rest := by
  cases rest with
  | nil => exact absurd rfl h
  | cons b t =>
    show (List.intersperse sep (a :: b :: t)).flatten = _
    rw [List.intersperse_cons_cons]
    show a ++ (sep ++ (List.intersperse sep (b :: t)).flatten) = _
    rw [List.append_assoc]
    rfl

theorem intercalate_append_ne (sep : Str) (xs ys : List Str)
    (hx : xs ≠ []) (hy : ys ≠ []) :
    List.intercalate sep (xs ++ ys) =
      List.intercalate sep xs ++ sep ++ List.intercalate sep ys := by
  induction xs with
  | nil => exact absurd rfl hx
  | cons a t ih =>
    cases t with
    | nil =>
      rw [List.singleton_append, intercalate_cons2 sep a ys hy,
        show List.intercalate sep [a] = a by simp [List.intercalate]]
    | cons b t2 =>
      rw [List.cons_append, intercalate_cons2 sep a ((b :: t2) ++ ys)
        (by simp), intercalate_cons2 sep a (b :: t2) (by simp),
        ih (by simp)]
      simp [List.append_assoc]

theorem occursIn_intercalate_false (c0 : Char) (ps : Str) (c : Char)
    (hc : c ∉ (c0 :: ps)) :
    ∀ (ls : List Str), (∀ l ∈ ls, occursIn (c0 :: ps) l = false) →
    occursIn (c0 :: ps) (List.intercalate [c] ls) = false := by
  intro ls
  induction ls with
  | nil => intro _; simp [List.intercalate, occursIn, leadsWith]
  | cons l rest ih =>
    intro hall
    cases rest with
    | nil =>
      show occursIn (c0 :: ps) (List.intercalate [c] [l]) = false
      rw [show List.intercalate [c] [l] = l by simp [List.intercalate]]
      exact hall l (List.mem_cons_self l [])
    | cons r2 t2 =>
      rw [intercalate_cons2 [c] l (r2 :: t2) (by simp), List.append_assoc]
      rw [show ([c] : Str) ++ List.intercalate [c] (r2 :: t2) =
        c :: List.intercalate [c] (r2 :: t2) from rfl]
      refine occursIn_sep c0 ps l c _ (hall l (List.mem_cons_self l _)) hc ?_
      exact ih (fun x hx => hall x (List.mem_cons_of_mem l hx))

theorem occursIn_splitOn_piece_false (p : Str) (c : Char) (s : Str)
    (hs : occursIn p s = false) (l : Str) (hl : l ∈ s.splitOn c) :
    occursIn p l = false := by
  cases hocc : occursIn p l with
  | false => rfl
  | true =>
    exfalso
    have : occursIn p s = true := by
      have hjoin : List.intercalate [c] (s.splitOn c) = s :=
        List.intercalate_splitOn s c
      rw [← hjoin]
      clear hjoin hs
      generalize s.splitOn c = pieces at hl ⊢
      induction pieces with
      | nil => simp at hl
      | cons x xs ih =>
        rcases List.mem_cons.mp hl with h | h
        · subst h
          cases xs with
          | nil =>
            rw [show List.intercalate [c] [l] = l by simp [List.intercalate]]
            exact hocc
          | cons y ys =>
            rw [intercalate_cons2 [c] l (y :: ys) (by simp),
              List.append_assoc]
            exact occursIn_append_left_true p l _ hocc
        · cases xs with
          | nil => simp at h
          | cons y ys =>
            rw [intercalate_cons2 [c] x (y :: ys) (by simp),
              List.append_assoc]
            exact occursIn_append_right_true p x _
              (occursIn_append_right_true p [c] _ (ih h))
    rw [this] at hs
    exact Bool.noConfusion hs

/-! ## Decimal round-trip lemmas -/

theorem digitChar_toNat (n : Nat) (h : n < 10) : (digitChar n).toNat = 48 + n := by
  interval_cases n <;> decide

theorem isDigitChar_digitChar_mod (x : Nat) :
    isDigitChar (digitChar (x % 10)) = true := by
  have h : x % 10 < 10 := Nat.mod_lt x (by omega)
  unfold isDigitChar
  rw [digitChar_toNat (x % 10) h]
  simp
  omega

theorem digitValOf_digitChar_mod (x : Nat) :
    digitValOf (digitChar (x % 10)) = x % 10 := by
  have h : x % 10 < 10 := Nat.mod_lt x (by omega)
  unfold digitValOf
  rw [digitChar_toNat (x % 10) h]
  omega

theorem isDigitChar_digitChar (n : Nat) (h : n < 10) :
    isDigitChar (digitChar n) = true := by
  have := isDigitChar_digitChar_mod n
  rwa [Nat.mod_eq_of_lt h] at this

theorem isDigitChar_not_dash (c : Char) (h : isDigitChar c = true) :
    (c == '-') = false := by
  cases hb : c == '-' with
  | false => rfl
  | true =>
    exfalso
    have : c = '-' := by simpa using hb
    subst this
    simp [isDigitChar] at h

theorem isDigitChar_not_plus (c : Char) (h : isDigitChar c = true) :
    (c == '+') = false := by
  cases hb : c == '+' with
  | false => rfl
  | true =>
    exfalso
    have : c = '+' := by simpa using hb
    subst this
    simp [isDigitChar] at h

theorem isDigitChar_not_space (c : Char) (h : isDigitChar c = true) :
    goIsSpace c = false := by
  have hf : 48 ≤ c.toNat ∧ c.toNat ≤ 57 := by simpa [isDigitChar] using h
  unfold goIsSpace
  simp only [Bool.or_eq_false_iff, Bool.and_eq_false_iff, beq_eq_false_iff_ne,
    ne_eq, decide_eq_false_iff_not, not_le]
  omega

theorem isDigitChar_ne_lf (c : Char) (h : isDigitChar c = true) : c ≠ '\n' := by
  intro heq
  subst heq
  simp [isDigitChar] at h

theorem isDigitChar_ne_hash (c : Char) (h : isDigitChar c = true) : c ≠ '#' := by
  intro heq
  subst heq
  simp [isDigitChar] at h

theorem natToStr_all_digits (n : Nat) : ∀ c ∈ natToStr n, isDigitChar c = true := by
  induction n using Nat.strong_induction_on with
  | _ n ih =>
    rw [natToStr]
    split
    · intro c hc
      rw [List.mem_singleton] at hc
      subst hc
      exact isDigitChar_digitChar n (by omega)
    · intro c hc
      rcases List.mem_append.mp hc with h | h
      · exact ih (n / 10) (Nat.div_lt_self (by omega) (by omega)) c h
      · rw [List.mem_singleton] at h
        subst h
        exact isDigitChar_digitChar_mod n

theorem natToStr_ne_nil (n : Nat) : natToStr n ≠ [] := by
  rw [natToStr]
  split <;> simp

theorem digitsVal_cons (acc : Nat) (c : Char) (cs : Str) :
    digitsVal acc (c :: cs) =
      if isDigitChar c then digitsVal (acc * 10 + (c.toNat - 48)) cs else acc := rfl

theorem parseGoNat_cons (c : Char) (cs : Str) :
    parseGoNat (c :: cs) =
      if isDigitChar c then some (digitsVal (c.toNat - 48) cs) else none := rfl

theorem digitsVal_append_digits (s : Str) :
    ∀ (t : Str) (acc : Nat), (∀ c ∈ s, isDigitChar c = true) →
    digitsVal acc (s ++ t) = digitsVal (digitsVal acc s) t := by
  induction s with
  | nil => intro t acc _; rfl
  | cons c cs ih =>
    intro t acc hall
    have hc : isDigitChar c = true := hall c (List.mem_cons_self c cs)
    show digitsVal acc (c :: (cs ++ t)) = digitsVal (digitsVal acc (c :: cs)) t
    rw [digitsVal_cons, if_pos hc, digitsVal_cons, if_pos hc]
    exact ih t _ (fun x hx => hall x (List.mem_cons_of_mem c hx))

theorem digitsVal_natToStr (n : Nat) : ∀ acc : Nat,
    digitsVal acc (natToStr n) = acc * 10 ^ (natToStr n).length + n := by
  induction n using Nat.strong_induction_on with
  | _ n ih =>
    intro acc
    rw [natToStr]
    split
    · rw [digitsVal_cons, if_pos (isDigitChar_digitChar n (by omega))]
      show acc * 10 + ((digitChar n).toNat - 48) = _
      rw [digitChar_toNat n (by omega)]
      show _ = acc * 10 ^ ([digitChar n] : Str).length + n
      simp only [List.length_singleton, pow_one]
      omega
    · rw [digitsVal_append_digits (natToStr (n / 10)) [digitChar (n % 10)] acc
        (natToStr_all_digits (n / 10))]
      rw [ih (n / 10) (Nat.div_lt_self (by omega) (by omega)) acc]
      rw [digitsVal_cons, if_pos (isDigitChar_digitChar_mod n)]
      show digitsVal _ [] = _
      show _ * 10 + ((digitChar (n % 10)).toNat - 48) = _
      rw [List.length_append, List.length_singleton, pow_succ]
      rw [digitChar_toNat (n % 10) (Nat.mod_lt n (by omega))]
      have hdm := Nat.div_add_mod n 10
      set L := (natToStr (n / 10)).length
      ring_nf
      omega

theorem parseGoNat_natToStr (n : Nat) : parseGoNat (natToStr n) = some n := by
  obtain ⟨c, cs, hcons⟩ : ∃ c cs, natToStr n = c :: cs := by
    cases h : natToStr n with
    | nil => exact absurd h (natToStr_ne_nil n)
    | cons c cs => exact ⟨c, cs, rfl⟩
  have hd : isDigitChar c = true :=
    natToStr_all_digits n c (hcons ▸ List.mem_cons_self c cs)
  have h0 := digitsVal_natToStr n 0
  rw [hcons] at h0
  rw [show digitsVal 0 (c :: cs) = digitsVal (c.toNat - 48) cs by
    rw [digitsVal_cons, if_pos hd]; norm_num] at h0
  rw [hcons, parseGoNat_cons, if_pos hd, h0]
  norm_num

theorem dropWhile_space_cons_of_not (c : Char) (s : Str) (h : goIsSpace c = false) :
    List.dropWhile goIsSpace (c :: s) = c :: s := by
  rw [List.dropWhile_cons, if_neg (by rw [h]; exact Bool.noConfusion)]

theorem parseGoInt_intToStr (i : Int) : parseGoInt (intToStr i) = some i := by
  unfold intToStr parseGoInt
  by_cases hi : i < 0
  · rw [if_pos hi]
    rw [dropWhile_space_cons_of_not '-' (natToStr (-i).toNat) (by decide)]
    show (if ('-' == '-') = true then
        (parseGoNat (natToStr (-i).toNat)).map (fun n => -(n : Int))
      else _) = _
    rw [if_pos (by decide), parseGoNat_natToStr]
    show some (-((((-i).toNat : Nat)) : Int)) = some i
    congr 1
    omega
  · rw [if_neg hi]
    obtain ⟨c, cs, hcons⟩ : ∃ c cs, natToStr i.toNat = c :: cs := by
      cases h : natToStr i.toNat with
      | nil => exact absurd h (natToStr_ne_nil _)
      | cons c cs => exact ⟨c, cs, rfl⟩
    have hd : isDigitChar c = true :=
      natToStr_all_digits _ c (hcons ▸ List.mem_cons_self c cs)
    rw [hcons, dropWhile_space_cons_of_not c cs (isDigitChar_not_space c hd)]
    show (if (c == '-') = true then _
      else if (c == '+') = true then _
      else (parseGoNat (c :: cs)).map (fun n => (n : Int))) = _
    rw [if_neg (by rw [isDigitChar_not_dash c hd]; exact Bool.noConfusion),
      if_neg (by rw [isDigitChar_not_plus c hd]; exact Bool.noConfusion),
      ← hcons, parseGoNat_natToStr]
    show some (((i.toNat : Nat)) : Int) = some i
    congr 1
    omega

/-! ## Timestamp round-trip -/

theorem daysInMonth_le (y m : Nat) : daysInMonth y m ≤ 31 := by
  unfold daysInMonth
  split_ifs <;> omega

theorem parse_format_primary (dt : DateTime) (h : validDateTime dt) :
    parsePrimaryTime (formatPrimaryTime dt) = some (truncSec dt) := by
  obtain ⟨h1, h2, h3, h4, h5, h6, h7, h8, h9⟩ := h
  unfold formatPrimaryTime pad4 pad2
  simp only [List.cons_append, List.nil_append]
  unfold parsePrimaryTime
  simp only [isDigitChar_digitChar_mod, digitValOf_digitChar_mod,
    beq_self_eq_true, Bool.and_self, Bool.and_true, Bool.true_and, if_true]
  have hy : ((dt.year / 1000 % 10 * 10 + dt.year / 100 % 10) * 10 +
      dt.year / 10 % 10) * 10 + dt.year % 10 = dt.year := by omega
  have hmo : dt.month / 10 % 10 * 10 + dt.month % 10 = dt.month := by omega
  have hday : dt.day ≤ 31 := le_trans h6 (daysInMonth_le dt.year dt.month)
  have hd : dt.day / 10 % 10 * 10 + dt.day % 10 = dt.day := by omega
  have hh : dt.hour / 10 % 10 * 10 + dt.hour % 10 = dt.hour := by omega
  have hmi : dt.minute / 10 % 10 * 10 + dt.minute % 10 = dt.minute := by omega
  have hsec : dt.second / 10 % 10 * 10 + dt.second % 10 = dt.second := by omega
  rw [hy, hmo, hd, hh, hmi, hsec]
  rw [if_pos ⟨h3, h4, h5, h6, h7, h8, h9⟩]
  simp [truncSec]

/-! ## Metadata line lemmas -/

theorem mem_of_getLast_some (l : Str) (a : Char) (h : l.getLast? = some a) :
    a ∈ l := by
  obtain ⟨hne, heq⟩ := List.mem_getLast?_eq_getLast (by simp [h] : a ∈ l.getLast?)
  subst heq
  exact List.getLast_mem hne

theorem mem_of_head_some (l : Str) (a : Char) (h : l.head? = some a) : a ∈ l := by
  cases l with
  | nil => simp at h
  | cons c cs =>
    simp at h
    subst h
    exact List.mem_cons_self c cs

theorem noEdgeSpace_of_forall (s : Str) (h : ∀ c ∈ s, goIsSpace c = false) :
    noEdgeSpace s := by
  constructor
  · cases hh : s.head? with
    | none => rfl
    | some c => simpa using h c (mem_of_head_some s c hh)
  · cases hh : s.getLast? with
    | none => rfl
    | some c => simpa using h c (mem_of_getLast_some s c hh)

theorem head?_append_of_ne (a b : Str) (h : a ≠ []) : (a ++ b).head? = a.head? := by
  cases a with
  | nil => exact absurd rfl h
  | cons c cs => rfl

theorem getLast?_cons_of_ne (c : Char) (v : Str) (h : v ≠ []) :
    (c :: v).getLast? = v.getLast? := by
  show (([c] : Str) ++ v).getLast? = v.getLast?
  exact List.getLast?_append_of_ne_nil [c] h

/-- Trimming a generated metadata line: the label keeps both ends clean
unless the value is empty, in which case only the separating space is
trimmed away. -/
theorem trim_label_line (label v : Str) (hne : label ≠ [])
    (hh : label.head?.all (fun c => !goIsSpace c) = true)
    (hl : label.getLast?.all (fun c => !goIsSpace c) = true)
    (hv : noEdgeSpace v) :
    trimSpace (label ++ ' ' :: v) =
      if v = [] then label else label ++ ' ' :: v := by
  by_cases hvv : v = []
  · subst hvv
    rw [if_pos rfl]
    rw [show (label ++ [' '] : Str) = label ++ [' '] from rfl]
    rw [trimSpace_concat_space label ' ' (by decide)]
    exact trimSpace_eq_self_of_noEdge label ⟨hh, hl⟩
  · rw [if_neg hvv]
    apply trimSpace_eq_self_of_noEdge
    constructor
    · rw [head?_append_of_ne label (' ' :: v) hne]
      exact hh
    · rw [List.getLast?_append_of_ne_nil label (by simp : ' ' :: v ≠ [])]
      rw [getLast?_cons_of_ne ' ' v hvv]
      exact hv.2

/-- Recovering the value of a metadata line after TrimPrefix and
TrimSpace. -/
theorem recover_value (label v : Str) (hv : noEdgeSpace v) :
    trimSpace ((if v = [] then label else label ++ ' ' :: v).drop
      label.length) = v := by
  by_cases hvv : v = []
  · subst hvv
    rw [if_pos rfl, List.drop_length]
    rfl
  · rw [if_neg hvv, List.drop_left]
    rw [trimSpace_cons_space ' ' v (by decide)]
    exact trimSpace_eq_self_of_noEdge v hv

theorem leadsWith_ne_prop (p q : Str) (v : Str) (k : Nat) (hk1 : k ≤ p.length)
    (hk2 : k ≤ q.length) (h : leadsWith (p.take k) q = false) :
    ¬ (leadsWith p (q ++ v) = true) := by
  rw [leadsWith_false_pair p q v k hk1 hk2 h]
  exact Bool.noConfusion

theorem applyMeta_id (now : DateTime) (m : Memory) (rest : Str) :
    applyMetaLine now m (idLabel ++ rest) = { m with id := trimSpace rest } := by
  unfold applyMetaLine
  rw [if_pos (leadsWith_self_append idLabel rest), List.drop_left]

theorem applyMeta_title (now : DateTime) (m : Memory) (rest : Str) :
    applyMetaLine now m (titleLabel ++ rest) =
      { m with title := trimSpace rest } := by
  unfold applyMetaLine
  rw [if_neg (leadsWith_ne_prop idLabel titleLabel rest 9 (by decide) (by decide)
    (by decide))]
  rw [if_pos (leadsWith_self_append titleLabel rest), List.drop_left]

theorem applyMeta_tags (now : DateTime) (m : Memory) (rest : Str) :
    applyMetaLine now m (tagsLabel ++ rest) =
      { m with tags := ((trimSpace rest).splitOn ',').map trimSpace } := by
  unfold applyMetaLine
  rw [if_neg (leadsWith_ne_prop idLabel tagsLabel rest 9 (by decide) (by decide)
    (by decide))]
  rw [if_neg (leadsWith_ne_prop titleLabel tagsLabel rest 9 (by decide)
    (by decide) (by decide))]
  rw [if_pos (leadsWith_self_append tagsLabel rest), List.drop_left]

theorem applyMeta_time (now : DateTime) (m : Memory) (rest : Str) :
    applyMetaLine now m (timeLabel ++ rest) =
      { m with createdAt :=
          match parsePrimaryTime (trimSpace rest) with
          | some dt => dt
          | none =>
            match parseRFC3339Time (trimSpace rest) with
            | some dt => dt
            | none => now } := by
  unfold applyMetaLine
  rw [if_neg (leadsWith_ne_prop idLabel timeLabel rest 9 (by decide) (by decide)
    (by decide))]
  rw [if_neg (leadsWith_ne_prop titleLabel timeLabel rest 9 (by decide)
    (by decide) (by decide))]
  rw [if_neg (leadsWith_ne_prop tagsLabel timeLabel rest 9 (by decide)
    (by decide) (by decide))]
  rw [if_pos (leadsWith_self_append timeLabel rest), List.drop_left]

theorem applyMeta_source (now : DateTime) (m : Memory) (rest : Str) :
    applyMetaLine now m (sourceLabel ++ rest) =
      { m with source := trimSpace rest } := by
  unfold applyMetaLine
  rw [if_neg (leadsWith_ne_prop idLabel sourceLabel rest 9 (by decide)
    (by decide) (by decide))]
  rw [if_neg (leadsWith_ne_prop titleLabel sourceLabel rest 9 (by decide)
    (by decide) (by decide))]
  rw [if_neg (leadsWith_ne_prop tagsLabel sourceLabel rest 9 (by decide)
    (by decide) (by decide))]
  rw [if_neg (leadsWith_ne_prop timeLabel sourceLabel rest 9 (by decide)
    (by decide) (by decide))]
  rw [if_pos (leadsWith_self_append sourceLabel rest), List.drop_left]

theorem applyMeta_imp (now : DateTime) (m : Memory) (rest : Str) :
    applyMetaLine now m (impLabel ++ rest) =
      (match parseGoInt (trimSpace rest) with
       | some v => { m with importance := v }
       | none => m) := by
  unfold applyMetaLine
  rw [if_neg (leadsWith_ne_prop idLabel impLabel rest 9 (by decide)
    (by decide) (by decide))]
  rw [if_neg (leadsWith_ne_prop titleLabel impLabel rest 9 (by decide)
    (by decide) (by decide))]
  rw [if_neg (leadsWith_ne_prop tagsLabel impLabel rest 9 (by decide)
    (by decide) (by decide))]
  rw [if_neg (leadsWith_ne_prop timeLabel impLabel rest 10 (by decide)
    (by decide) (by decide))]
  rw [if_neg (leadsWith_ne_prop sourceLabel impLabel rest 9 (by decide)
    (by decide) (by decide))]
  rw [if_pos (leadsWith_self_append impLabel rest), List.drop_left]

theorem leadsWith_dash_false (ps : Str) (c : Char) (cs : Str)
    (h : (('-' : Char) == c) = false) :
    leadsWith ('-' :: ps) (c :: cs) = false := by
  simp [leadsWith, h]

theorem dash_beq_digit_false (c : Char) (h : isDigitChar c = true) :
    (('-' : Char) == c) = false := by
  cases hb : ('-' : Char) == c with
  | false => rfl
  | true =>
    exfalso
    have : ('-' : Char) = c := by simpa using hb
    subst this
    simp [isDigitChar] at h

theorem applyMeta_digits (now : DateTime) (m : Memory) (t : Str)
    (hne : t ≠ []) (hall : ∀ c ∈ t, isDigitChar c = true) :
    applyMetaLine now m t = m := by
  obtain ⟨c, cs, rfl⟩ : ∃ c cs, t = c :: cs := by
    cases t with
    | nil => exact absurd rfl hne
    | cons c cs => exact ⟨c, cs, rfl⟩
  have hdash := dash_beq_digit_false c (hall c (List.mem_cons_self c cs))
  unfold applyMetaLine
  rw [if_neg (by rw [show idLabel = '-' :: idLabel.tail from rfl,
        leadsWith_dash_false _ c cs hdash]; exact Bool.noConfusion)]
  rw [if_neg (by rw [show titleLabel = '-' :: titleLabel.tail from rfl,
        leadsWith_dash_false _ c cs hdash]; exact Bool.noConfusion)]
  rw [if_neg (by rw [show tagsLabel = '-' :: tagsLabel.tail from rfl,
        leadsWith_dash_false _ c cs hdash]; exact Bool.noConfusion)]
  rw [if_neg (by rw [show timeLabel = '-' :: timeLabel.tail from rfl,
        leadsWith_dash_false _ c cs hdash]; exact Bool.noConfusion)]
  rw [if_neg (by rw [show sourceLabel = '-' :: sourceLabel.tail from rfl,
        leadsWith_dash_false _ c cs hdash]; exact Bool.noConfusion)]
  rw [if_neg (by rw [show impLabel = '-' :: impLabel.tail from rfl,
        leadsWith_dash_false _ c cs hdash]; exact Bool.noConfusion)]

/-! ## Joined tags lemmas -/

theorem joinGo_cons2 (sep t : Str) (rest : List Str) (h : rest ≠ []) :
    joinGo sep (t :: rest) = t ++ sep ++ joinGo sep rest :=
  intercalate_cons2 sep t rest h

theorem joinGo_single (sep t : Str) : joinGo sep [t] = t := by
  simp [joinGo, List.intercalate]

theorem joinGo_ne_nil (sep : Str) (ts : List Str) (hne : ts ≠ [])
    (hall : ∀ t ∈ ts, t ≠ []) : joinGo sep ts ≠ [] := by
  cases ts with
  | nil => exact absurd rfl hne
  | cons t rest =>
    have ht : t ≠ [] := hall t (List.mem_cons_self t rest)
    cases rest with
    | nil => rw [joinGo_single]; exact ht
    | cons r2 t2 =>
      rw [joinGo_cons2 sep t (r2 :: t2) (by simp)]
      intro hx
      rcases List.append_eq_nil.mp (List.append_eq_nil.mp hx).1 with ⟨h1, _⟩
      exact ht h1

theorem joinGo_head? (sep : Str) (t : Str) (rest : List Str) (h0 : t ≠ []) :
    (joinGo sep (t :: rest)).head? = t.head? := by
  cases rest with
  | nil => rw [joinGo_single]
  | cons r2 t2 =>
    rw [joinGo_cons2 sep t (r2 :: t2) (by simp), List.append_assoc]
    exact head?_append_of_ne t _ h0

theorem joinGo_getLast? (sep : Str) : ∀ (ts : List Str), ts ≠ [] →
    (∀ t ∈ ts, t ≠ []) →
    ∃ t ∈ ts, (joinGo sep ts).getLast? = t.getLast? := by
  intro ts
  induction ts with
  | nil => intro h; exact absurd rfl h
  | cons t rest ih =>
    intro _ hall
    cases rest with
    | nil =>
      exact ⟨t, List.mem_cons_self t [], by rw [joinGo_single]⟩
    | cons r2 t2 =>
      obtain ⟨u, hu, he⟩ := ih (by simp)
        (fun x hx => hall x (List.mem_cons_of_mem t hx))
      refine ⟨u, List.mem_cons_of_mem t hu, ?_⟩
      rw [joinGo_cons2 sep t (r2 :: t2) (by simp), List.append_assoc]
      rw [List.getLast?_append_of_ne_nil t]
      · rw [List.getLast?_append_of_ne_nil sep]
        · exact he
        · exact joinGo_ne_nil sep (r2 :: t2) (by simp)
            (fun x hx => hall x (List.mem_cons_of_mem t hx))
      · intro hx
        rcases List.append_eq_nil.mp hx with ⟨_, h2⟩
        exact joinGo_ne_nil sep (r2 :: t2) (by simp)
          (fun x hx => hall x (List.mem_cons_of_mem t hx)) h2

theorem noEdgeSpace_joinGo (ts : List Str)
    (hall : ∀ t ∈ ts, t ≠ [] ∧ noEdgeSpace t) :
    noEdgeSpace (joinGo commaSp ts) := by
  cases ts with
  | nil => exact ⟨rfl, rfl⟩
  | cons t rest =>
    constructor
    · rw [joinGo_head? commaSp t rest (hall t (List.mem_cons_self t rest)).1]
      exact ((hall t (List.mem_cons_self t rest)).2).1
    · obtain ⟨u, hu, he⟩ := joinGo_getLast? commaSp (t :: rest) (by simp)
        (fun x hx => (hall x hx).1)
      rw [he]
      exact ((hall u hu).2).2

theorem lf_not_mem_joinGo (ts : List Str)
    (hall : ∀ t ∈ ts, '\n' ∉ t) : '\n' ∉ joinGo commaSp ts := by
  induction ts with
  | nil => simp [joinGo, List.intercalate]
  | cons t rest ih =>
    cases rest with
    | nil =>
      rw [joinGo_single]
      exact hall t (List.mem_cons_self t [])
    | cons r2 t2 =>
      rw [joinGo_cons2 commaSp t (r2 :: t2) (by simp)]
      intro hx
      rcases List.mem_append.mp hx with h | h
      · rcases List.mem_append.mp h with h | h
        · exact hall t (List.mem_cons_self t _) h
        · simp [commaSp] at h
      · exact ih (fun x hx => hall x (List.mem_cons_of_mem t hx)) h

theorem markSep_cons : markSep = '#' :: markSep.tail := by decide

theorem markfree_joinGo (ts : List Str)
    (hall : ∀ t ∈ ts, occursIn markSep t = false) :
    occursIn markSep (joinGo commaSp ts) = false := by
  induction ts with
  | nil =>
    rw [markSep_cons]
    simp [joinGo, List.intercalate, occursIn, leadsWith]
  | cons t rest ih =>
    cases rest with
    | nil =>
      rw [joinGo_single]
      exact hall t (List.mem_cons_self t [])
    | cons r2 t2 =>
      rw [joinGo_cons2 commaSp t (r2 :: t2) (by simp), List.append_assoc]
      rw [show commaSp ++ joinGo commaSp (r2 :: t2) =
        ',' :: (' ' :: joinGo commaSp (r2 :: t2)) from rfl]
      rw [markSep_cons]
      apply occursIn_sep
      · rw [← markSep_cons]; exact hall t (List.mem_cons_self t _)
      · decide
      · show occursIn ('#' :: markSep.tail) (' ' :: joinGo commaSp (r2 :: t2)) = false
        unfold occursIn
        rw [Bool.or_eq_false_iff]
        constructor
        · simp [leadsWith]
        · rw [← markSep_cons]
          exact ih (fun x hx => hall x (List.mem_cons_of_mem t hx))

/-! ## parseMeta step lemmas -/

theorem parseMeta_cons (now : DateTime) (m : Memory) (l : Str) (ls : List Str) :
    parseMeta now m (l :: ls) =
      if trimSpace l = [] then (m, ls)
      else parseMeta now (applyMetaLine now m (trimSpace l)) ls := rfl

theorem intToStr_all_nonspace (i : Int) :
    ∀ c ∈ intToStr i, goIsSpace c = false := by
  intro c hc
  unfold intToStr at hc
  by_cases hi : i < 0
  · rw [if_pos hi] at hc
    rcases List.mem_cons.mp hc with h | h
    · subst h; decide
    · exact isDigitChar_not_space c (natToStr_all_digits _ c h)
  · rw [if_neg hi] at hc
    exact isDigitChar_not_space c (natToStr_all_digits _ c hc)

theorem intToStr_ne_nil (i : Int) : intToStr i ≠ [] := by
  unfold intToStr
  by_cases hi : i < 0
  · rw [if_pos hi]; simp
  · rw [if_neg hi]; exact natToStr_ne_nil _

theorem formatPrimary_split (dt : DateTime) :
    formatPrimaryTime dt =
      (pad4 dt.year ++ '-' :: pad2 dt.month ++ '-' :: pad2 dt.day ++
        ' ' :: pad2 dt.hour ++ ':' :: pad2 dt.minute ++
        [':', digitChar (dt.second / 10 % 10)]) ++
      [digitChar (dt.second % 10)] := by
  simp [formatPrimaryTime, pad2, pad4]

theorem noEdgeSpace_formatPrimary (dt : DateTime) :
    noEdgeSpace (formatPrimaryTime dt) := by
  constructor
  · show (formatPrimaryTime dt).head?.all (fun c => !goIsSpace c) = true
    rw [show (formatPrimaryTime dt).head? =
      some (digitChar (dt.year / 1000 % 10)) from rfl]
    simp [isDigitChar_not_space _ (isDigitChar_digitChar_mod (dt.year / 1000))]
  · rw [formatPrimary_split dt,
      List.getLast?_append_of_ne_nil _ (by simp :
        ([digitChar (dt.second % 10)] : Str) ≠ [])]
    rw [show ([digitChar (dt.second % 10)] : Str).getLast? =
      some (digitChar (dt.second % 10)) from rfl]
    simp [isDigitChar_not_space _ (isDigitChar_digitChar_mod dt.second)]

theorem formatPrimary_ne_nil (dt : DateTime) : formatPrimaryTime dt ≠ [] := by
  rw [formatPrimary_split dt]
  simp

theorem parseMeta_ord_step (now : DateTime) (m : Memory) (ord : Nat)
    (ls : List Str) :
    parseMeta now m (natToStr ord :: ls) = parseMeta now m ls := by
  rw [parseMeta_cons]
  rw [trimSpace_eq_self_of_noEdge (natToStr ord) (noEdgeSpace_of_forall _
    (fun c hc => isDigitChar_not_space c (natToStr_all_digits ord c hc)))]
  rw [if_neg (natToStr_ne_nil ord)]
  rw [applyMeta_digits now m (natToStr ord) (natToStr_ne_nil ord)
    (natToStr_all_digits ord)]

theorem parseMeta_id_step (now : DateTime) (m : Memory) (v : Str)
    (ls : List Str) (hv : noEdgeSpace v) :
    parseMeta now m ((idLabel ++ ' ' :: v) :: ls) =
      parseMeta now { m with id := v } ls := by
  rw [parseMeta_cons,
    trim_label_line idLabel v (by decide) (by decide) (by decide) hv]
  by_cases hvv : v = []
  · subst hvv
    rw [if_pos rfl, if_neg (by decide : ¬(idLabel = []))]
    rw [show idLabel = idLabel ++ ([] : Str) by simp]
    rw [applyMeta_id]
    rfl
  · rw [if_neg hvv, if_neg (by simp : ¬(idLabel ++ ' ' :: v = []))]
    rw [applyMeta_id, trimSpace_cons_space ' ' v (by decide),
      trimSpace_eq_self_of_noEdge v hv]

theorem parseMeta_title_step (now : DateTime) (m : Memory) (v : Str)
    (ls : List Str) (hv : noEdgeSpace v) :
    parseMeta now m ((titleLabel ++ ' ' :: v) :: ls) =
      parseMeta now { m with title := v } ls := by
  rw [parseMeta_cons,
    trim_label_line titleLabel v (by decide) (by decide) (by decide) hv]
  by_cases hvv : v = []
  · subst hvv
    rw [if_pos rfl, if_neg (by decide : ¬(titleLabel = []))]
    rw [show titleLabel = titleLabel ++ ([] : Str) by simp]
    rw [applyMeta_title]
    rfl
  · rw [if_neg hvv, if_neg (by simp : ¬(titleLabel ++ ' ' :: v = []))]
    rw [applyMeta_title, trimSpace_cons_space ' ' v (by decide),
      trimSpace_eq_self_of_noEdge v hv]

theorem parseMeta_tags_step (now : DateTime) (m : Memory) (v : Str)
    (ls : List Str) (hv : noEdgeSpace v) :
    parseMeta now m ((tagsLabel ++ ' ' :: v) :: ls) =
      parseMeta now { m with tags := (v.splitOn ',').map trimSpace } ls := by
  rw [parseMeta_cons,
    trim_label_line tagsLabel v (by decide) (by decide) (by decide) hv]
  by_cases hvv : v = []
  · subst hvv
    rw [if_pos rfl, if_neg (by decide : ¬(tagsLabel = []))]
    rw [show tagsLabel = tagsLabel ++ ([] : Str) by simp]
    rw [applyMeta_tags]
    rfl
  · rw [if_neg hvv, if_neg (by simp : ¬(tagsLabel ++ ' ' :: v = []))]
    rw [applyMeta_tags, trimSpace_cons_space ' ' v (by decide),
      trimSpace_eq_self_of_noEdge v hv]

theorem parseMeta_time_step (now : DateTime) (m : Memory) (dt : DateTime)
    (ls : List Str) (hdt : validDateTime dt) :
    parseMeta now m ((timeLabel ++ ' ' :: formatPrimaryTime dt) :: ls) =
      parseMeta now { m with createdAt := truncSec dt } ls := by
  rw [parseMeta_cons,
    trim_label_line timeLabel (formatPrimaryTime dt) (by decide) (by decide)
      (by decide) (noEdgeSpace_formatPrimary dt)]
  rw [if_neg (formatPrimary_ne_nil dt),
    if_neg (by simp : ¬(timeLabel ++ ' ' :: formatPrimaryTime dt = []))]
  rw [applyMeta_time, trimSpace_cons_space ' ' (formatPrimaryTime dt)
    (by decide),
    trimSpace_eq_self_of_noEdge (formatPrimaryTime dt)
      (noEdgeSpace_formatPrimary dt)]
  rw [parse_format_primary dt hdt]

theorem parseMeta_source_step (now : DateTime) (m : Memory) (v : Str)
    (ls : List Str) (hv : noEdgeSpace v) :
    parseMeta now m ((sourceLabel ++ ' ' :: v) :: ls) =
      parseMeta now { m with source := v } ls := by
  rw [parseMeta_cons,
    trim_label_line sourceLabel v (by decide) (by decide) (by decide) hv]
  by_cases hvv : v = []
  · subst hvv
    rw [if_pos rfl, if_neg (by decide : ¬(sourceLabel = []))]
    rw [show sourceLabel = sourceLabel ++ ([] : Str) by simp]
    rw [applyMeta_source]
    rfl
  · rw [if_neg hvv, if_neg (by simp : ¬(sourceLabel ++ ' ' :: v = []))]
    rw [applyMeta_source, trimSpace_cons_space ' ' v (by decide),
      trimSpace_eq_self_of_noEdge v hv]

theorem parseMeta_imp_step (now : DateTime) (m : Memory) (i : Int)
    (ls : List Str) :
    parseMeta now m ((impLabel ++ ' ' :: intToStr i) :: ls) =
      parseMeta now { m with importance := i } ls := by
  rw [parseMeta_cons,
    trim_label_line impLabel (intToStr i) (by decide) (by decide) (by decide)
      (noEdgeSpace_of_forall _ (intToStr_all_nonspace i))]
  rw [if_neg (intToStr_ne_nil i),
    if_neg (by simp : ¬(impLabel ++ ' ' :: intToStr i = []))]
  rw [applyMeta_imp, trimSpace_cons_space ' ' (intToStr i) (by decide),
    trimSpace_eq_self_of_noEdge (intToStr i)
      (noEdgeSpace_of_forall _ (intToStr_all_nonspace i))]
  rw [parseGoInt_intToStr i]

theorem parseMeta_blank_step (now : DateTime) (m : Memory) (ls : List Str) :
    parseMeta now m ([] :: ls) = (m, ls) := by
  rw [parseMeta_cons]
  rw [if_pos (by rfl : trimSpace [] = [])]

/-- The metadata loop on one serialized block recovers the record fields,
with the timestamp truncated to seconds and the tags as the parser
produces them from the joined tag string. -/
theorem parseMeta_block (now : DateTime) (ord : Nat) (r : Memory)
    (hidv : noEdgeSpace r.id) (htv : noEdgeSpace r.title)
    (hsv : noEdgeSpace r.source)
    (hjv : noEdgeSpace (joinGo commaSp r.tags))
    (hdt : validDateTime r.createdAt) :
    parseMeta now zeroMemory (blockLines ord r) =
      ({ id := r.id, title := r.title, content := [],
         tags := ((joinGo commaSp r.tags).splitOn ',').map trimSpace,
         createdAt := truncSec r.createdAt, source := r.source,
         importance := r.importance },
       r.content.splitOn '\n' ++ [[], []]) := by
  show parseMeta now zeroMemory (natToStr ord :: (idLabel ++ ' ' :: r.id) ::
    (titleLabel ++ ' ' :: r.title) ::
    (tagsLabel ++ ' ' :: joinGo commaSp r.tags) ::
    (timeLabel ++ ' ' :: formatPrimaryTime r.createdAt) ::
    (sourceLabel ++ ' ' :: r.source) ::
    (impLabel ++ ' ' :: intToStr r.importance) ::
    [] :: (r.content.splitOn '\n' ++ [[], []])) = _
  rw [parseMeta_ord_step, parseMeta_id_step now _ _ _ hidv,
    parseMeta_title_step now _ _ _ htv, parseMeta_tags_step now _ _ _ hjv,
    parseMeta_time_step now _ _ _ hdt, parseMeta_source_step now _ _ _ hsv,
    parseMeta_imp_step, parseMeta_blank_step]
  simp [zeroMemory]

/-! ## splitGo on serialized documents -/

theorem splitOn_ne_nil (c : Char) (s : Str) : s.splitOn c ≠ [] := by
  unfold List.splitOn
  exact List.splitOnP_ne_nil _ _

theorem leadsWith_block_false (c0 : Char) (ps b tail : Str)
    (hnl : '\n' ∉ (c0 :: ps))
    (h : leadsWith (c0 :: ps) (b ++ ['\n']) = false) :
    leadsWith (c0 :: ps) ((b ++ ['\n']) ++ tail) = false := by
  cases hlw : leadsWith (c0 :: ps) ((b ++ ['\n']) ++ tail) with
  | false => rfl
  | true =>
    exfalso
    rw [leadsWith_iff_take, List.take_append_eq_append_take] at hlw
    by_cases hlen : (c0 :: ps).length ≤ (b ++ ['\n']).length
    · rw [Nat.sub_eq_zero_of_le hlen, List.take_zero, List.append_nil] at hlw
      have h2 : leadsWith (c0 :: ps) (b ++ ['\n']) = true := by
        rw [leadsWith_iff_take]; exact hlw
      rw [h2] at h
      exact Bool.noConfusion h
    · rw [List.take_of_length_le (by omega)] at hlw
      have hmem : '\n' ∈ (c0 :: ps) := by
        rw [← hlw]
        exact List.mem_append_left _ (List.mem_append_right _ (by simp))
      exact hnl hmem

theorem splitMark_no_occur (p : Char) (ps : Str) : ∀ (a : Str),
    occursIn (p :: ps) a = false → splitMark p ps a = [a] := by
  intro a
  induction a with
  | nil =>
    intro _
    rw [splitMark]
  | cons c cs ih =>
    intro h
    obtain ⟨h1, h2⟩ := occursIn_cons_false _ _ _ h
    rw [splitMark]
    rw [if_neg (by rw [h1]; exact Bool.noConfusion)]
    rw [ih h2]

theorem splitMark_block (p : Char) (ps : Str) (hnl : '\n' ∉ (p :: ps)) :
    ∀ (b rest : Str), occursIn (p :: ps) (b ++ ['\n']) = false →
    splitMark p ps ((b ++ ['\n']) ++ ((p :: ps) ++ rest)) =
      (b ++ ['\n']) :: splitMark p ps rest := by
  intro b
  induction b with
  | nil =>
    intro rest hocc
    show splitMark p ps ('\n' :: ((p :: ps) ++ rest)) =
      ['\n'] :: splitMark p ps rest
    have hp : ((p : Char) == '\n') = false := by
      simp only [beq_eq_false_iff_ne, ne_eq]
      intro h; exact hnl (by rw [h]; exact List.mem_cons_self '\n' ps)
    rw [splitMark]
    rw [if_neg (by simp [leadsWith, hp])]
    have hinner : splitMark p ps ((p :: ps) ++ rest) =
        [] :: splitMark p ps rest := by
      show splitMark p ps (p :: (ps ++ rest)) = [] :: splitMark p ps rest
      rw [splitMark]
      rw [if_pos (by
        have := leadsWith_self_append (p :: ps) rest
        rwa [List.cons_append] at this)]
      rw [List.drop_left]
    rw [hinner]
  | cons x xs ih =>
    intro rest hocc
    have hocc' : occursIn (p :: ps) (x :: (xs ++ ['\n'])) = false := hocc
    obtain ⟨h1, h2⟩ := occursIn_cons_false _ _ _ hocc'
    show splitMark p ps (x :: ((xs ++ ['\n']) ++ ((p :: ps) ++ rest))) =
      (x :: (xs ++ ['\n'])) :: splitMark p ps rest
    rw [splitMark]
    have hlw : leadsWith (p :: ps)
        (x :: ((xs ++ ['\n']) ++ ((p :: ps) ++ rest))) = false := by
      have hb := leadsWith_block_false p ps (x :: xs) ((p :: ps) ++ rest)
        hnl h1
      exact hb
    rw [if_neg (by rw [hlw]; exact Bool.noConfusion)]
    rw [ih rest h2]

theorem markSep_ne_nl : '\n' ∉ markSep := by decide

theorem splitGo_markSep (s : Str) :
    splitGo markSep s = splitMark '#' markSep.tail s := by
  conv_lhs => rw [markSep_cons]
  rfl

theorem splitMark_sep_no_occur (a : Str) (h : occursIn markSep a = false) :
    splitMark '#' markSep.tail a = [a] := by
  apply splitMark_no_occur
  rw [← markSep_cons]
  exact h

theorem splitMark_sep_block (b rest : Str)
    (hocc : occursIn markSep (b ++ ['\n']) = false) :
    splitMark '#' markSep.tail ((b ++ ['\n']) ++ (markSep ++ rest)) =
      (b ++ ['\n']) :: splitMark '#' markSep.tail rest := by
  have h := splitMark_block '#' markSep.tail
    (by rw [← markSep_cons]; exact markSep_ne_nl) b rest
    (by rw [← markSep_cons]; exact hocc)
  rw [← markSep_cons] at h
  exact h

/-! ## Character freeness of the generated lines -/

theorem markfree_cons_nonhash (c : Char) (s : Str) (hc : c ≠ '#')
    (hs : occursIn markSep s = false) : occursIn markSep (c :: s) = false := by
  rw [markSep_cons]
  unfold occursIn
  rw [Bool.or_eq_false_iff]
  refine ⟨?_, by rw [← markSep_cons]; exact hs⟩
  simp [leadsWith,
    show ('#' == c) = false from beq_eq_false_iff_ne.mpr (fun h => hc h.symm)]

theorem markfree_label_line (label : Str) (hl : '#' ∉ label) (v : Str)
    (hv : occursIn markSep v = false) :
    occursIn markSep (label ++ ' ' :: v) = false := by
  rw [markSep_cons]
  apply occursIn_append_clean _ _ _ _ hl
  rw [← markSep_cons]
  exact markfree_cons_nonhash ' ' v (by decide) hv

theorem pad2_chars (n : Nat) : ∀ c ∈ pad2 n, isDigitChar c = true := by
  intro c hc
  rcases List.mem_cons.mp hc with rfl | hc
  · exact isDigitChar_digitChar_mod _
  · rcases List.mem_cons.mp hc with rfl | hc
    · exact isDigitChar_digitChar_mod _
    · exact absurd hc (List.not_mem_nil c)

theorem pad4_chars (n : Nat) : ∀ c ∈ pad4 n, isDigitChar c = true := by
  intro c hc
  rcases List.mem_cons.mp hc with rfl | hc
  · exact isDigitChar_digitChar_mod _
  · rcases List.mem_cons.mp hc with rfl | hc
    · exact isDigitChar_digitChar_mod _
    · rcases List.mem_cons.mp hc with rfl | hc
      · exact isDigitChar_digitChar_mod _
      · rcases List.mem_cons.mp hc with rfl | hc
        · exact isDigitChar_digitChar_mod _
        · exact absurd hc (List.not_mem_nil c)

theorem formatPrimary_mem (dt : DateTime) (c : Char)
    (hc : c ∈ formatPrimaryTime dt) :
    isDigitChar c = true ∨ c = '-' ∨ c = ' ' ∨ c = ':' := by
  unfold formatPrimaryTime at hc
  rcases List.mem_append.mp hc with hc | hc
  · rcases List.mem_append.mp hc with hc | hc
    · rcases List.mem_append.mp hc with hc | hc
      · rcases List.mem_append.mp hc with hc | hc
        · rcases List.mem_append.mp hc with hc | hc
          · exact Or.inl (pad4_chars _ _ hc)
          · rcases List.mem_cons.mp hc with rfl | hc
            · exact Or.inr (Or.inl rfl)
            · exact Or.inl (pad2_chars _ _ hc)
        · rcases List.mem_cons.mp hc with rfl | hc
          · exact Or.inr (Or.inl rfl)
          · exact Or.inl (pad2_chars _ _ hc)
      · rcases List.mem_cons.mp hc with rfl | hc
        · exact Or.inr (Or.inr (Or.inl rfl))
        · exact Or.inl (pad2_chars _ _ hc)
    · rcases List.mem_cons.mp hc with rfl | hc
      · exact Or.inr (Or.inr (Or.inr rfl))
      · exact Or.inl (pad2_chars _ _ hc)
  · rcases List.mem_cons.mp hc with rfl | hc
    · exact Or.inr (Or.inr (Or.inr rfl))
    · exact Or.inl (pad2_chars _ _ hc)

theorem formatPrimary_no_hash (dt : DateTime) : '#' ∉ formatPrimaryTime dt := by
  intro hc
  rcases formatPrimary_mem dt '#' hc with h | h | h | h
  · exact isDigitChar_ne_hash _ h rfl
  · exact absurd h (by decide)
  · exact absurd h (by decide)
  · exact absurd h (by decide)

theorem formatPrimary_no_lf (dt : DateTime) : '\n' ∉ formatPrimaryTime dt := by
  intro hc
  rcases formatPrimary_mem dt '\n' hc with h | h | h | h
  · exact isDigitChar_ne_lf _ h rfl
  · exact absurd h (by decide)
  · exact absurd h (by decide)
  · exact absurd h (by decide)

theorem intToStr_no_hash (i : Int) : '#' ∉ intToStr i := by
  intro hc
  unfold intToStr at hc
  by_cases hi : i < 0
  · rw [if_pos hi] at hc
    rcases List.mem_cons.mp hc with h | h
    · exact absurd h (by decide)
    · exact isDigitChar_ne_hash _ (natToStr_all_digits _ _ h) rfl
  · rw [if_neg hi] at hc
    exact isDigitChar_ne_hash _ (natToStr_all_digits _ _ hc) rfl

theorem intToStr_no_lf (i : Int) : '\n' ∉ intToStr i := by
  intro hc
  unfold intToStr at hc
  by_cases hi : i < 0
  · rw [if_pos hi] at hc
    rcases List.mem_cons.mp hc with h | h
    · exact absurd h (by decide)
    · exact isDigitChar_ne_lf _ (natToStr_all_digits _ _ h) rfl
  · rw [if_neg hi] at hc
    exact isDigitChar_ne_lf _ (natToStr_all_digits _ _ hc) rfl

theorem lf_notMem_label_line (label v : Str) (hl : '\n' ∉ label)
    (hv : '\n' ∉ v) : '\n' ∉ label ++ ' ' :: v := by
  intro hmem
  rcases List.mem_append.mp hmem with h | h
  · exact hl h
  · rcases List.mem_cons.mp h with h | h
    · exact absurd h (by decide)
    · exact hv h

theorem lf_notMem_blockLines (ord : Nat) (m : Memory)
    (hid : '\n' ∉ m.id) (hti : '\n' ∉ m.title) (hsrc : '\n' ∉ m.source)
    (htags : ∀ t ∈ m.tags, '\n' ∉ t) :
    ∀ l ∈ blockLines ord m, '\n' ∉ l := by
  intro l hl
  unfold blockLines at hl
  simp only [List.cons_append, List.nil_append, List.mem_cons,
    List.mem_append, List.mem_singleton, List.not_mem_nil, or_false] at hl
  rcases hl with rfl|rfl|rfl|rfl|rfl|rfl|rfl|rfl|h
  · exact fun hmem => isDigitChar_ne_lf _ (natToStr_all_digits _ _ hmem) rfl
  · exact lf_notMem_label_line idLabel m.id (by decide) hid
  · exact lf_notMem_label_line titleLabel m.title (by decide) hti
  · exact lf_notMem_label_line tagsLabel _ (by decide)
      (lf_not_mem_joinGo m.tags htags)
  · exact lf_notMem_label_line timeLabel _ (by decide)
      (formatPrimary_no_lf m.createdAt)
  · exact lf_notMem_label_line sourceLabel m.source (by decide) hsrc
  · exact lf_notMem_label_line impLabel _ (by decide)
      (intToStr_no_lf m.importance)
  · simp
  · rcases h with h | rfl | rfl
    · exact splitOn_piece_not_mem '\n' m.content l h
    · simp
    · simp

theorem markfree_genBody (ord : Nat) (m : Memory)
    (hid : occursIn markSep m.id = false)
    (hti : occursIn markSep m.title = false)
    (hsrc : occursIn markSep m.source = false)
    (htags : ∀ t ∈ m.tags, occursIn markSep t = false)
    (hcon : occursIn markSep m.content = false) :
    occursIn markSep (genBody ord m) = false := by
  unfold genBody
  rw [markSep_cons]
  apply occursIn_intercalate_false _ _ '\n' (by decide)
  intro l hl
  rw [← markSep_cons]
  unfold blockLines at hl
  simp only [List.cons_append, List.nil_append, List.mem_cons,
    List.mem_append, List.mem_singleton, List.not_mem_nil, or_false] at hl
  rcases hl with rfl|rfl|rfl|rfl|rfl|rfl|rfl|rfl|h
  · rw [markSep_cons]
    exact not_occursIn_head_notMem '#' _ _
      (fun hmem => isDigitChar_ne_hash _ (natToStr_all_digits _ _ hmem) rfl)
  · exact markfree_label_line idLabel (by decide) m.id hid
  · exact markfree_label_line titleLabel (by decide) m.title hti
  · exact markfree_label_line tagsLabel (by decide) _
      (markfree_joinGo m.tags htags)
  · exact markfree_label_line timeLabel (by decide) _ (by
      rw [markSep_cons]
      exact not_occursIn_head_notMem '#' _ _ (formatPrimary_no_hash m.createdAt))
  · exact markfree_label_line sourceLabel (by decide) m.source hsrc
  · exact markfree_label_line impLabel (by decide) _ (by
      rw [markSep_cons]
      exact not_occursIn_head_notMem '#' _ _ (intToStr_no_hash m.importance))
  · decide
  · rcases h with h | rfl | rfl
    · exact occursIn_splitOn_piece_false markSep '\n' m.content hcon l h
    · decide
    · decide

/-! ## The shape of a generated block -/

theorem blockLines_cons (ord : Nat) (m : Memory) :
    blockLines ord m =
      natToStr ord :: (idLabel ++ ' ' :: m.id) ::
      (titleLabel ++ ' ' :: m.title) ::
      (tagsLabel ++ ' ' :: joinGo commaSp m.tags) ::
      (timeLabel ++ ' ' :: formatPrimaryTime m.createdAt) ::
      (sourceLabel ++ ' ' :: m.source) ::
      (impLabel ++ ' ' :: intToStr m.importance) :: [] ::
      (m.content.splitOn '\n' ++ [[], []]) := by
  simp [blockLines]

theorem genBody_chain (ord : Nat) (m : Memory) :
    genBody ord m =
      natToStr ord ++ '\n' ::
      (idLabel ++ ' ' :: m.id ++ '\n' ::
      (titleLabel ++ ' ' :: m.title ++ '\n' ::
      (tagsLabel ++ ' ' :: joinGo commaSp m.tags ++ '\n' ::
      (timeLabel ++ ' ' :: formatPrimaryTime m.createdAt ++ '\n' ::
      (sourceLabel ++ ' ' :: m.source ++ '\n' ::
      (impLabel ++ ' ' :: intToStr m.importance ++ '\n' :: '\n' ::
      (m.content ++ '\n' :: '\n' :: []))))))) := by
  unfold genBody
  rw [blockLines_cons]
  rw [intercalate_cons2 _ _ _ (by simp)]
  rw [intercalate_cons2 _ _ _ (by simp)]
  rw [intercalate_cons2 _ _ _ (by simp)]
  rw [intercalate_cons2 _ _ _ (by simp)]
  rw [intercalate_cons2 _ _ _ (by simp)]
  rw [intercalate_cons2 _ _ _ (by simp)]
  rw [intercalate_cons2 _ _ _ (by simp)]
  rw [intercalate_cons2 _ _ _ (by simp)]
  rw [intercalate_append_ne ['\n'] _ _ (splitOn_ne_nil '\n' m.content)
    (by simp)]
  rw [List.intercalate_splitOn m.content '\n']
  rw [show List.intercalate ['\n'] [([] : Str), []] = ['\n'] from by decide]
  simp

theorem genBlock_eq (ord : Nat) (m : Memory) :
    genBlock ord m = markSep ++ genBody ord m := by
  rw [genBody_chain]
  rfl

theorem genBody_concat (ord : Nat) (m : Memory) :
    ∃ bb : Str, genBody ord m = bb ++ ['\n'] := by
  refine ⟨natToStr ord ++ '\n' ::
      (idLabel ++ ' ' :: m.id ++ '\n' ::
      (titleLabel ++ ' ' :: m.title ++ '\n' ::
      (tagsLabel ++ ' ' :: joinGo commaSp m.tags ++ '\n' ::
      (timeLabel ++ ' ' :: formatPrimaryTime m.createdAt ++ '\n' ::
      (sourceLabel ++ ' ' :: m.source ++ '\n' ::
      (impLabel ++ ' ' :: intToStr m.importance ++ '\n' :: '\n' ::
      (m.content ++ ['\n']))))))), ?_⟩
  rw [genBody_chain]
  simp

theorem splitOn_genBody (ord : Nat) (m : Memory)
    (hid : '\n' ∉ m.id) (hti : '\n' ∉ m.title) (hsrc : '\n' ∉ m.source)
    (htags : ∀ t ∈ m.tags, '\n' ∉ t) :
    (genBody ord m).splitOn '\n' = blockLines ord m := by
  unfold genBody
  exact List.splitOn_intercalate (blockLines ord m) '\n'
    (lf_notMem_blockLines ord m hid hti hsrc htags) (by simp [blockLines])

theorem blockLines_length (ord : Nat) (m : Memory) :
    ¬ (blockLines ord m).length < 6 := by
  simp [blockLines]

/-! ## Splitting a whole generated document -/

theorem splitMark_genBlocks : ∀ (rs : List Memory) (i : Nat) (b : Str),
    occursIn markSep (b ++ ['\n']) = false →
    (∀ r ∈ rs, ∀ j : Nat, occursIn markSep (genBody j r) = false) →
    splitMark '#' markSep.tail ((b ++ ['\n']) ++ genBlocks i rs) =
      (b ++ ['\n']) :: bodiesList i rs := by
  intro rs
  induction rs with
  | nil =>
    intro i b hb _
    show splitMark '#' markSep.tail ((b ++ ['\n']) ++ []) = (b ++ ['\n']) :: []
    rw [List.append_nil]
    exact splitMark_sep_no_occur _ hb
  | cons r rest ih =>
    intro i b hb hall
    show splitMark '#' markSep.tail
        ((b ++ ['\n']) ++ (genBlock (i + 1) r ++ genBlocks (i + 1) rest)) =
      (b ++ ['\n']) :: (genBody (i + 1) r :: bodiesList (i + 1) rest)
    rw [genBlock_eq]
    rw [List.append_assoc markSep (genBody (i + 1) r) (genBlocks (i + 1) rest)]
    rw [splitMark_sep_block b _ hb]
    obtain ⟨bb, hbb⟩ := genBody_concat (i + 1) r
    have hbf : occursIn markSep (bb ++ ['\n']) = false := by
      rw [← hbb]; exact hall r (List.mem_cons_self r rest) (i + 1)
    rw [hbb]
    rw [ih (i + 1) bb hbf (fun x hx j => hall x (List.mem_cons_of_mem r hx) j)]

theorem sections_of_generate (rs : List Memory)
    (hall : ∀ r ∈ rs, ∀ j : Nat, occursIn markSep (genBody j r) = false) :
    splitGo markSep (generateMemoriesMarkdown rs) =
      headerStr :: bodiesList 0 rs := by
  unfold generateMemoriesMarkdown
  rw [splitGo_markSep]
  rw [show headerStr = ("# Trading-GPT 记忆\n").data ++ ['\n'] from by decide]
  exact splitMark_genBlocks rs 0 _ (by decide) hall

theorem bodiesList_length : ∀ (rs : List Memory) (i : Nat),
    (bodiesList i rs).length = rs.length := by
  intro rs
  induction rs with
  | nil => intro i; rfl
  | cons r rest ih =>
    intro i
    show (genBody (i + 1) r :: bodiesList (i + 1) rest).length =
      rest.length + 1
    simp [ih]

/-! ## Recovering the fields from a parsed block -/

theorem content_recover (s : Str) (hs : trimSpace s = s) :
    trimSpace (List.intercalate ['\n'] (s.splitOn '\n' ++ [[], []])) = s := by
  rw [intercalate_append_ne ['\n'] _ _ (splitOn_ne_nil '\n' s) (by simp)]
  rw [List.intercalate_splitOn s '\n']
  rw [show List.intercalate ['\n'] [([] : Str), []] = ['\n'] from by decide]
  rw [trimSpace_concat_space _ '\n' (by decide)]
  rw [trimSpace_concat_space _ '\n' (by decide)]
  exact hs

theorem tags_roundtrip : ∀ (ts : List Str), ts ≠ [] → (∀ t ∈ ts, tagOK t) →
    ((joinGo commaSp ts).splitOn ',').map trimSpace = ts := by
  intro ts
  induction ts with
  | nil => intro h _; exact absurd rfl h
  | cons t rest ih =>
    intro _ hall
    obtain ⟨htne, htnc, htlv⟩ := hall t (List.mem_cons_self t rest)
    cases rest with
    | nil =>
      rw [joinGo_single]
      unfold List.splitOn
      rw [List.splitOnP_eq_single (fun x => x == ',') t
        (fun x hx h => htnc ((eq_of_beq h) ▸ hx))]
      simp [trimSpace_eq_self_of_noEdge t htlv.1]
    | cons r2 t2 =>
      rw [joinGo_cons2 commaSp t (r2 :: t2) (by simp)]
      rw [List.append_assoc]
      rw [show commaSp ++ joinGo commaSp (r2 :: t2) =
        ',' :: (' ' :: joinGo commaSp (r2 :: t2)) from rfl]
      unfold List.splitOn
      rw [List.splitOnP_first (fun x => x == ',') t
        (fun x hx h => htnc ((eq_of_beq h) ▸ hx)) ',' (by decide) _]
      rw [List.map_cons]
      rw [trimSpace_eq_self_of_noEdge t htlv.1]
      rw [List.splitOnP_cons]
      rw [if_neg (by decide)]
      cases hsp : (joinGo commaSp (r2 :: t2)).splitOn ',' with
      | nil => exact absurd hsp (splitOn_ne_nil ',' _)
      | cons h0 T =>
        have hX : List.splitOnP (fun x => x == ',')
            (joinGo commaSp (r2 :: t2)) = h0 :: T := hsp
        rw [hX]
        rw [show List.modifyHead (List.cons ' ') (h0 :: T) =
          (' ' :: h0) :: T from rfl]
        rw [List.map_cons]
        rw [trimSpace_cons_space ' ' h0 (by decide)]
        have hih := ih (by simp) (fun x hx => hall x (List.mem_cons_of_mem t hx))
        rw [hsp, List.map_cons] at hih
        rw [hih]

/-! ## The per-section loop on generated bodies -/

theorem parseSections_cons (now : DateTime) (fresh : Nat → Str) (i k : Nat)
    (r : Memory) (rest : List Str) (hwf : wfBase r) :
    parseSections now fresh (genBody (i + 1) r :: rest) k =
      { r with
          createdAt := truncSec r.createdAt,
          tags := ((joinGo commaSp r.tags).splitOn ',').map trimSpace } ::
      parseSections now fresh rest k := by
  obtain ⟨hid, hlid, hlti, hlsrc, htags, htrim, hmf, hdt⟩ := hwf
  have hjn : noEdgeSpace (joinGo commaSp r.tags) :=
    noEdgeSpace_joinGo r.tags
      (fun t ht => ⟨(htags t ht).1, ((htags t ht).2.2).1⟩)
  have hie : r.id.isEmpty = false := by
    cases hr : r.id with
    | nil => exact absurd hr hid
    | cons a l => rfl
  simp only [parseSections]
  rw [splitOn_genBody (i + 1) r hlid.2.1 hlti.2.1 hlsrc.2.1
    (fun t ht => ((htags t ht).2.2).2.1)]
  rw [if_neg (blockLines_length (i + 1) r)]
  rw [parseMeta_block now (i + 1) r hlid.1 hlti.1 hlsrc.1 hjn hdt]
  simp [hie, content_recover r.content htrim]

theorem parseSections_bodies (now : DateTime) (fresh : Nat → Str) :
    ∀ (rs : List Memory) (i k : Nat), (∀ r ∈ rs, wfBase r) →
    parseSections now fresh (bodiesList i rs) k =
      rs.map (fun r =>
        { r with
            createdAt := truncSec r.createdAt,
            tags := ((joinGo commaSp r.tags).splitOn ',').map trimSpace }) := by
  intro rs
  induction rs with
  | nil => intro i k _; rfl
  | cons r rest ih =>
    intro i k hall
    show parseSections now fresh
        (genBody (i + 1) r :: bodiesList (i + 1) rest) k = _
    rw [parseSections_cons now fresh i k r _
      (hall r (List.mem_cons_self r rest))]
    rw [ih (i + 1) k (fun x hx => hall x (List.mem_cons_of_mem r hx))]
    rfl

theorem parseMM_gen (now : DateTime) (fresh : Nat → Str) (rs : List Memory)
    (hall : ∀ r ∈ rs, wfBase r) :
    parseMemoriesFromMarkdown now fresh (generateMemoriesMarkdown rs) =
      rs.map (fun r =>
        { r with
            createdAt := truncSec r.createdAt,
            tags := ((joinGo commaSp r.tags).splitOn ',').map trimSpace }) := by
  have hmf : ∀ r ∈ rs, ∀ j : Nat, occursIn markSep (genBody j r) = false := by
    intro r hr j
    obtain ⟨hid, hlid, hlti, hlsrc, htags, htrim, hcf, hdt⟩ := hall r hr
    exact markfree_genBody j r hlid.2.2 hlti.2.2 hlsrc.2.2
      (fun t ht => ((htags t ht).2.2).2.2) hcf
  simp only [parseMemoriesFromMarkdown]
  rw [sections_of_generate rs hmf]
  cases rs with
  | nil =>
    simp
    intro h
    exact absurd rfl h
  | cons r rest =>
    rw [if_neg (by simp [bodiesList])]
    rw [show (headerStr :: bodiesList 0 (r :: rest)).drop 1 =
      bodiesList 0 (r :: rest) from rfl]
    exact parseSections_bodies now fresh (r :: rest) 0 0 hall

/-- C1.  Round-trip law: for every non-empty sequence of well-formed
records, parseMemoriesFromMarkdown applied to generateMemoriesMarkdown
yields a sequence of the same length in which each record's id, title,
tags (order preserved), source, importance and content equal the
originals exactly, and each creation timestamp equals the original
truncated to second precision (the serialized layout 2006-01-02 15:04:05
drops the fractional seconds). -/
theorem parse_generate_roundtrip (now : DateTime) (fresh : Nat → Str)
    (records : List Memory) (hne : records ≠ [])
    (hwf : ∀ r ∈ records, wfMemory r) :
    parseMemoriesFromMarkdown now fresh (generateMemoriesMarkdown records) =
      records.map (fun r => { r with createdAt := truncSec r.createdAt }) := by
  rw [parseMM_gen now fresh records (fun r hr => (hwf r hr).1)]
  apply List.map_congr_left
  intro r hr
  show ({ r with
      createdAt := truncSec r.createdAt,
      tags := ((joinGo commaSp r.tags).splitOn ',').map trimSpace } : Memory) =
    { r with createdAt := truncSec r.createdAt }
  rw [tags_roundtrip r.tags (hwf r hr).2
    (fun t ht => ((hwf r hr).1).2.2.2.2.1 t ht)]

/-- C1, witness: the round-trip law applied to the two-record example
store. -/
theorem parse_generate_roundtrip_witness :
    ([memA, memB] : List Memory) ≠ [] ∧
    (∀ r ∈ [memA, memB], wfMemory r) ∧
    parseMemoriesFromMarkdown nowDT uuidStream
        (generateMemoriesMarkdown [memA, memB]) =
      [memA, memB].map (fun r => { r with createdAt := truncSec r.createdAt }) :=
  ⟨by decide, by decide,
    parse_generate_roundtrip nowDT uuidStream [memA, memB]
      (by decide) (by decide)⟩

/-- C10.  A record serialized with an empty tag list gets a tags metadata
line with an empty value, and parsing that block yields tags = [""] (the
one-element list holding the empty string), never the empty list: the
parser splits the empty value on "," into one empty piece.  The full
pipeline on a single such record therefore does not reproduce the empty
tag list. -/
theorem empty_tags_parse (now : DateTime) (fresh : Nat → Str) (r : Memory)
    (ht : r.tags = []) (hwf : wfBase r) :
    parseMemoriesFromMarkdown now fresh (generateMemoriesMarkdown [r]) =
      [{ r with
          createdAt := truncSec r.createdAt,
          tags := [[]] }] := by
  rw [parseMM_gen now fresh [r] (by
    intro x hx
    rw [List.mem_singleton] at hx
    rw [hx]
    exact hwf)]
  simp only [List.map_cons, List.map_nil]
  rw [ht]
  rfl

/-- C10, witness: the empty-tags fixture record parses back with tags
[""], a one-element list that is not the empty list. -/
theorem empty_tags_parse_witness :
    memC.tags = [] ∧ wfBase memC ∧
    parseMemoriesFromMarkdown nowDT uuidStream
        (generateMemoriesMarkdown [memC]) =
      [{ memC with
          createdAt := truncSec memC.createdAt,
          tags := [[]] }] :=
  ⟨rfl, by decide,
    empty_tags_parse nowDT uuidStream memC rfl (by decide)⟩

end TG
